import Mathlib

/-!
# Verification of the SupermarQ benchmark core

A shallow embedding, in Lean 4, of the benchmark-construction and scoring
algorithms of the SupermarQ quantum benchmark suite:

* constructor validation of `MerminBell` and `PhaseCode`;
* the Sherrington-Kirkpatrick problem-instance generator
  (`_gen_sk_Hamiltonian`) and the transverse-field Ising Hamiltonian
  generator (`_gen_tfim_Hamiltonian`);
* the multi-restart classical optimizer loop (`_gen_angles`);
* the energy-deviation scorers of the two QAOA proxies and the VQE proxy;
* the Mermin operator expansion and the Mermin-Bell scorers;
* the fermionic swap-network circuit generator (`_gen_swap_network`)
  together with its virtual-qubit routing invariants;
* the Hellinger fidelity used by the distributional scorers.

Python `Counter`/dict measurement distributions are embedded as association
lists `List (List Bool × ℚ)` (bitstring, weight); machine floats are
embedded as exact rationals; functions that raise in Python are embedded
as `Option`-valued functions.
-/

namespace Supermarq

/-! ## Constructor validation (MerminBell, PhaseCode) -/

/-- Embedding of `MerminBell.__init__`: raises `ValueError` unless the
qubit count is 3 or 4, otherwise stores the qubit count. -/
def merminBellInit (num_qubits : ℕ) : Except String ℕ :=
  if num_qubits ≠ 3 ∧ num_qubits ≠ 4 then
    .error "Only 3 and 4 qubit mermin-bell benchmarks are currently supported"
  else
    .ok num_qubits

/-- Embedding of `PhaseCode.__init__`: raises `ValueError` when the length
of `phase_state` differs from `num_data_qubits`. -/
def phaseCodeInit (num_data_qubits num_rounds : ℕ) (phase_state : List ℕ) :
    Except String (ℕ × ℕ × List ℕ) :=
  if phase_state.length ≠ num_data_qubits then
    .error "The length of `phase_state` must match the number of data qubits"
  else
    .ok (num_data_qubits, num_rounds, phase_state)

/-! ## The Sherrington-Kirkpatrick problem-instance generator

`_gen_sk_Hamiltonian` draws `n(n-1)/2` integers in `{0, 1}`
(`np.random.randint(low=0, high=2, ...)`), scales them to `{-1, +1}`,
builds the list of all pairs `(i, j)` with `i < j` in lexicographic order
popping one weight (from the end of the weight list) per pair, and finally
shuffles the result.  The random draws are an input `bits` of the
embedding; the shuffle is an arbitrary permutation, so the claims are
stated for every permutation of the generated list. -/

/-- The pair enumeration of `_gen_sk_Hamiltonian`:
`for i in range(n): for j in range(i+1, n)`. -/
def skPairs (n : ℕ) : List (ℕ × ℕ) :=
  (List.range n).flatMap fun i =>
    ((List.range n).map fun j => (i, j)).filter fun p => p.1 < p.2

/-- Attach weights to the pair list, popping one weight from the end of
the weight list per pair (`random_weights.pop()`); `none` when the weight
list runs out (Python `IndexError`). -/
def skBuild : List (ℕ × ℕ) → List ℤ → Option (List (ℕ × ℕ × ℤ))
  | [], _ => some []
  | (i, j) :: ps, ws =>
    match ws.getLast? with
    | none => none
    | some w => (skBuild ps ws.dropLast).map fun rest => (i, j, w) :: rest

/-- Embedding of `_gen_sk_Hamiltonian` before the final shuffle.
`bits` are the raw draws of `np.random.randint(low=0, high=2)`. -/
def genSkHamiltonian (n : ℕ) (bits : List ℕ) : Option (List (ℕ × ℕ × ℤ)) :=
  skBuild (skPairs n) (bits.map fun b : ℕ => 2 * (b : ℤ) - 1)

/-! ## The transverse-field Ising Hamiltonian generator -/

/-- One term of the TFIM Hamiltonian: a Pauli-type tag with the qubit
index (or pair) it acts on, and its weight.  Indices are integers because
Python computes the wraparound pair as `(num_qubits - 1, 0)`. -/
inductive TfimTerm : Type
  | X (i : ℤ) (w : ℤ)
  | ZZ (i j : ℤ) (w : ℤ)
  deriving DecidableEq, Repr

/-- Embedding of `VQEProxy._gen_tfim_Hamiltonian`: one `X` term per qubit,
one `ZZ` term per adjacent pair, and the wraparound `ZZ` term
`(num_qubits - 1, 0)`, all with weight 1. -/
def genTfimHamiltonian (n : ℕ) : List TfimTerm :=
  ((List.range n).map fun i : ℕ => TfimTerm.X (i : ℤ) 1)
    ++ ((List.range (n - 1)).map fun i : ℕ => TfimTerm.ZZ (i : ℤ) ((i : ℤ) + 1) 1)
    ++ [TfimTerm.ZZ ((n : ℤ) - 1) 0 1]

/-! ## The multi-restart optimizer loop

`_get_opt_angles` performs one COBYLA run from a random start and returns
a `(params, cost)` pair; the run outcomes are inputs of the embedding
(`run k` is the outcome of the `k`-th restart).  `_gen_angles` of the two
QAOA proxies folds five outcomes keeping the strictly best cost, starting
from the placeholder `([], 0.0)`; `_gen_angles` of `VQEProxy` performs a
single run and returns its parameters unconditionally. -/

/-- The best-so-far fold of `QAOAFermionicSwapProxy._gen_angles` and
`QAOAVanillaProxy._gen_angles` over a list of run outcomes. -/
def genAnglesFold (runs : List (List ℚ × ℚ)) : List ℚ :=
  (runs.foldl (fun best r => if r.2 < best.2 then r else best) ([], 0)).1

/-- The construction-time call of the QAOA `_gen_angles`: fold the
outcomes of exactly five restarts (`for _ in range(5)`). -/
def qaoaGenAngles (run : ℕ → List ℚ × ℚ) : List ℚ :=
  genAnglesFold ((List.range 5).map run)

/-- Embedding of `VQEProxy._gen_angles`: a single optimization run whose
parameters are returned unconditionally. -/
def vqeGenAngles (run : List ℚ × ℚ) : List ℚ :=
  run.1

/-- The weight carried by a TFIM Hamiltonian term. -/
def TfimTerm.weight : TfimTerm → ℤ
  | .X _ w => w
  | .ZZ _ _ w => w

/-! ## The energy-deviation scorers

Measurement distributions are association lists from bitstrings
(`List Bool`, big-endian: index 0 is the first character of the Python
string) to counts or probabilities (`ℚ`).  Scorers that raise
`ZeroDivisionError` in Python (zero total shots, zero ideal energy)
return `none`. -/

/-- Embedding of `_get_energy_for_bitstring` (identical in
`QAOAFermionicSwapProxy` and `QAOAVanillaProxy`): matching bits on a
weighted edge contribute `-weight`, differing bits `+weight`. -/
def energyForBitstring (H : List (ℕ × ℕ × ℤ)) (s : List Bool) : ℤ :=
  H.foldl
    (fun acc e =>
      if s.getD e.1 false = s.getD e.2.1 false then acc - e.2.2 else acc + e.2.2)
    0

/-- Embedding of `_get_expected_H_from_probs` of the QAOA proxies:
the probability-weighted sum of bitstring energies. -/
def expectedH (H : List (ℕ × ℕ × ℤ)) (probs : List (List Bool × ℚ)) : ℚ :=
  probs.foldl (fun acc kv => acc + kv.2 * (energyForBitstring H kv.1 : ℚ)) 0

/-- `sum(counts.values())`. -/
def totalShots (counts : List (List Bool × ℚ)) : ℚ :=
  (counts.map fun kv => kv.2).sum

/-- The experimental-count normalization of `QAOAVanillaProxy.score`:
`{k: v / total_shots for k, v in counts.items()}`. -/
def normalizeCounts (counts : List (List Bool × ℚ)) : List (List Bool × ℚ) :=
  counts.map fun kv => (kv.1, kv.2 / totalShots counts)

/-- The experimental-count normalization of `QAOAFermionicSwapProxy.score`:
`{k[::-1]: v / total_shots for k, v in counts.items()}` (bitstrings are
reversed due to the fermionic swap ansatz). -/
def normalizeCountsRev (counts : List (List Bool × ℚ)) : List (List Bool × ℚ) :=
  counts.map fun kv => (kv.1.reverse, kv.2 / totalShots counts)

/-- Embedding of `QAOAVanillaProxy.score`.  `ideal` is the distribution
returned by `_get_ideal_counts` on the benchmark's own circuit (the
Ideal-Distribution Oracle is the external circuit substrate). -/
def qaoaVanillaScore (H : List (ℕ × ℕ × ℤ)) (ideal counts : List (List Bool × ℚ)) :
    Option ℚ :=
  if totalShots counts = 0 then none
  else
    let hIdeal := expectedH H ideal
    let hExperimental := expectedH H (normalizeCounts counts)
    if hIdeal = 0 then none
    else some (1 - |hIdeal - hExperimental| / (2 * hIdeal))

/-- Embedding of `QAOAFermionicSwapProxy.score`.  `ideal` is the
(already key-reversed) distribution returned by its `_get_ideal_counts`. -/
def qaoaFermionicScore (H : List (ℕ × ℕ × ℤ)) (ideal counts : List (List Bool × ℚ)) :
    Option ℚ :=
  if totalShots counts = 0 then none
  else
    let hIdeal := expectedH H ideal
    let hExperimental := expectedH H (normalizeCountsRev counts)
    if hIdeal = 0 then none
    else some (1 - |hIdeal - hExperimental| / (2 * hIdeal))

/-- Embedding of `VQEProxy._parity_ones`. -/
def parityOnes (s : List Bool) : ℕ :=
  (s.countP fun b => b) % 2

/-- Embedding of `VQEProxy._calc`: each item of `bit_list` adds the
probability of the bitstring with a sign given by the item's parity. -/
def vqeCalc (bitList : List (List Bool)) (p : ℚ) : ℚ :=
  bitList.foldl (fun acc item => if parityOnes item = 0 then acc + p else acc - p) 0

/-- The per-bitstring list `bit_list_X`: one single-bit item per qubit. -/
def xBitLists (s : List Bool) : List (List Bool) :=
  s.map fun b => [b]

/-- The per-bitstring list `bit_list_Z`: each adjacent two-bit substring
plus the manually added wraparound item `bitstr[0] + bitstr[-1]`. -/
def zBitLists (s : List Bool) : List (List Bool) :=
  ((List.range (s.length - 1)).map fun i => [s.getD i false, s.getD (i + 1) false])
    ++ [[s.getD 0 false, s.getD (s.length - 1) false]]

/-- Embedding of `VQEProxy._get_expected_H_from_probs`: the X-term
contribution from the X-basis distribution plus the ring ZZ-term
contribution from the Z-basis distribution. -/
def vqeExpectedH (probsZ probsX : List (List Bool × ℚ)) : ℚ :=
  (probsX.foldl (fun acc kv => acc + vqeCalc (xBitLists kv.1) kv.2) 0)
    + (probsZ.foldl (fun acc kv => acc + vqeCalc (zBitLists kv.1) kv.2) 0)

/-- Embedding of `VQEProxy.score`: `counts` is the pair of Z-basis and
X-basis histograms; `idealZ`/`idealX` are the exact distributions of the
two circuits. -/
def vqeScore (idealZ idealX countsZ countsX : List (List Bool × ℚ)) : Option ℚ :=
  if totalShots countsZ = 0 ∨ totalShots countsX = 0 then none
  else
    let probsZ := normalizeCounts countsZ
    let probsX := normalizeCounts countsX
    let hExperimental := vqeExpectedH probsZ probsX
    let hIdeal := vqeExpectedH idealZ idealX
    if hIdeal = 0 then none
    else some (1 - |hIdeal - hExperimental| / |2 * hIdeal|)

/-! ## The Mermin operator and the Mermin-Bell scorers

`MerminBell._mermin_operator` expands
`(Π_j (x_j + i·y_j) - Π_j (x_j - i·y_j)) / (2i)` symbolically (via sympy)
into a sum of signed monomials; each monomial picks `x` or `y` per qubit.
The embedding expands the product combinatorially: a choice vector
`v : List Bool` (entry `j` is `true` when `y_j` is chosen) contributes
`i^{#y}` to the first product and `(-i)^{#y}` to the second, so its
coefficient in the operator is `(i^{#y} - (-i)^{#y}) / (2i)`, computed
below in Gaussian-integer arithmetic.  `false` maps to Pauli `X` and
`true` to Pauli `Y`. -/

/-- Gaussian-integer multiplication on pairs `(re, im)`. -/
def gmul (a b : ℤ × ℤ) : ℤ × ℤ :=
  (a.1 * b.1 - a.2 * b.2, a.1 * b.2 + a.2 * b.1)

/-- Gaussian-integer power. -/
def gpow (z : ℤ × ℤ) : ℕ → ℤ × ℤ
  | 0 => (1, 0)
  | k + 1 => gmul z (gpow z k)

/-- The coefficient `(i^k - (-i)^k) / (2i)` of a monomial with `k`
`y`-choices: division of `(a, b)` by `2i` yields real part `b / 2`
(the imaginary part always cancels here). -/
def merminCoef (k : ℕ) : ℤ :=
  ((gpow (0, 1) k).2 - (gpow (0, -1) k).2) / 2

/-- All `2^n` x/y choice vectors of length `n`. -/
def boolVecs : ℕ → List (List Bool)
  | 0 => [[]]
  | n + 1 => (boolVecs n).flatMap fun v => [false :: v, true :: v]

/-- Embedding of `MerminBell._mermin_operator`: the signed monomials with
nonzero coefficient (`false` = Pauli `X`, `true` = Pauli `Y`). -/
def merminOperator (n : ℕ) : List (ℤ × List Bool) :=
  (boolVecs n).filterMap fun v =>
    let c := merminCoef (v.countP fun b => b)
    if c = 0 then none else some (c, v)

/-- The Pauli string of a choice vector, as characters. -/
def pauliChars (v : List Bool) : List Char :=
  v.map fun b => if b then 'Y' else 'X'

/-- The `count_dict` table of `_mermin_score_N3`: for each Pauli string,
the list of measured qubits and the measurement coefficient. -/
def n3Table (pauli : List Bool) : Option (List ℕ × ℤ) :=
  if pauli = [false, false, true] then some ([0], 1)          -- XXY
  else if pauli = [false, true, false] then some ([1], 1)     -- XYX
  else if pauli = [true, false, false] then some ([2], -1)    -- YXX
  else if pauli = [true, true, true] then some ([0, 1, 2], 1) -- YYY
  else none

/-- The `count_dict` table of `_mermin_score_N4`. -/
def n4Table (pauli : List Bool) : Option (List ℕ × ℤ) :=
  if pauli = [false, false, false, true] then some ([0], 1)            -- XXXY
  else if pauli = [false, false, true, false] then some ([1], 1)       -- XXYX
  else if pauli = [false, true, false, false] then some ([2], 1)       -- XYXX
  else if pauli = [true, false, false, false] then some ([3], -1)      -- YXXX
  else if pauli = [false, true, true, true] then some ([0, 1, 2], -1)  -- XYYY
  else if pauli = [true, false, true, true] then some ([0, 1, 3], 1)   -- YXYY
  else if pauli = [true, true, false, true] then some ([0, 2, 3], 1)   -- YYXY
  else if pauli = [true, true, true, false] then some ([1, 2, 3], 1)   -- YYYX
  else none

/-- The parity sign of one bitstring: starts from the measurement
coefficient and flips for every measured qubit reading `1`. -/
def merminParity (mcoef : ℤ) (qs : List ℕ) (s : List Bool) : ℤ :=
  qs.foldl (fun p qb => if s.getD qb false then -p else p) mcoef

/-- The `numerator` accumulated over one term's counts:
`Σ coef * parity * count`. -/
def merminNumerator (coef mcoef : ℤ) (qs : List ℕ) (counts : List (List Bool × ℚ)) : ℚ :=
  counts.foldl (fun acc kv => acc + ((coef * merminParity mcoef qs kv.1 : ℤ) : ℚ) * kv.2) 0

/-- The expectation value accumulated by the Mermin scorers: one
`numerator / total` contribution per operator term, with a table lookup
per term (`none` models the Python `KeyError`). -/
def merminAccum (table : List Bool → Option (List ℕ × ℤ))
    (op : List (ℤ × List Bool)) (counts : List (List Bool × ℚ)) : Option ℚ :=
  op.foldlM
    (fun (acc : ℚ) t =>
      (table t.2).map fun entry =>
        acc + merminNumerator t.1 entry.2 entry.1 counts / totalShots counts)
    0

/-- Embedding of `MerminBell._mermin_score_N3`: accumulate the
expectation over the operator terms and rescale by `(E + 4) / 8`. -/
def merminScoreN3 (counts : List (List Bool × ℚ)) : Option ℚ :=
  if totalShots counts = 0 then none
  else (merminAccum n3Table (merminOperator 3) counts).map fun ev => (ev + 4) / 8

/-- Embedding of `MerminBell._mermin_score_N4`: accumulate the
expectation over the operator terms and rescale by `(E + 8) / 16`. -/
def merminScoreN4 (counts : List (List Bool × ℚ)) : Option ℚ :=
  if totalShots counts = 0 then none
  else (merminAccum n4Table (merminOperator 4) counts).map fun ev => (ev + 8) / 16

/-- The explicit four-term weighted-parity expectation of the 3-qubit
Mermin benchmark (operator coefficients and measurement table written
out). -/
def merminE3 (counts : List (List Bool × ℚ)) : ℚ :=
  (merminNumerator 1 1 [0] counts + merminNumerator 1 1 [1] counts
    + merminNumerator 1 (-1) [2] counts + merminNumerator (-1) 1 [0, 1, 2] counts)
    / totalShots counts

/-- The explicit eight-term weighted-parity expectation of the 4-qubit
Mermin benchmark. -/
def merminE4 (counts : List (List Bool × ℚ)) : ℚ :=
  (merminNumerator 1 1 [0] counts + merminNumerator 1 1 [1] counts
    + merminNumerator 1 1 [2] counts + merminNumerator 1 (-1) [3] counts
    + merminNumerator (-1) (-1) [0, 1, 2] counts + merminNumerator (-1) 1 [0, 1, 3] counts
    + merminNumerator (-1) 1 [0, 2, 3] counts + merminNumerator (-1) 1 [1, 2, 3] counts)
    / totalShots counts

/-! ## The Hellinger fidelity of the distributional scorers -/

/-- Modelled from the spec: `qiskit.quantum_info.hellinger_fidelity`
(used by `GHZ.score` and `PhaseCode.score`) is an external library
function whose code is not part of this repository.  Per the spec it
equals `(Σ_x sqrt(p_ideal(x) · p_experimental(x)))^2`, computed only
over keys present in the ideal distribution, with missing experimental
keys contributing 0.  Distributions are embedded as real-valued
functions on encoded bitstrings together with their (finite) key sets,
a function being zero outside its key set. -/
noncomputable def hellingerFidelity (keys : Finset ℕ) (p q : ℕ → ℝ) : ℝ :=
  (∑ k ∈ keys, Real.sqrt (p k * q k)) ^ 2

/-! ## The fermionic swap network (`QAOAFermionicSwapProxy._gen_swap_network`)

The network alternates two covers of disjoint adjacent physical-qubit
pairs for `n` layers over the mutable array
`virtual_map[physical] = logical`, initialized to `np.arange(n)`. -/

/-- `cover_a = [(idx - 1, idx) for idx in range(1, num_qubits, 2)]`. -/
def coverA (n : ℕ) : List (ℕ × ℕ) :=
  (List.range n).filterMap fun idx =>
    if idx % 2 = 1 then some (idx - 1, idx) else none

/-- `cover_b = [(idx - 1, idx) for idx in range(2, num_qubits, 2)]`. -/
def coverB (n : ℕ) : List (ℕ × ℕ) :=
  (List.range n).filterMap fun idx =>
    if 2 ≤ idx ∧ idx % 2 = 0 then some (idx - 1, idx) else none

/-- `cover = [cover_a, cover_b][layer % 2]`. -/
def layerCover (n ℓ : ℕ) : List (ℕ × ℕ) :=
  if ℓ % 2 = 0 then coverA n else coverB n

/-- The simultaneous assignment
`virtual_map[j], virtual_map[i] = virtual_map[i], virtual_map[j]`. -/
def swapEntries (vm : List ℕ) (i j : ℕ) : List ℕ :=
  (vm.set i (vm.getD j 0)).set j (vm.getD i 0)

/-- Apply every swap of a cover, left to right. -/
def applyCover (c : List (ℕ × ℕ)) (vm : List ℕ) : List ℕ :=
  c.foldl (fun acc p => swapEntries acc p.1 p.2) vm

/-- The virtual map after `t` layers, starting from the identity. -/
def vmAfter (n t : ℕ) : List ℕ :=
  (List.range t).foldl (fun vm ℓ => applyCover (layerCover n ℓ) vm) (List.range n)

/-- Closed-form trajectory: `w n t p` is the logical qubit residing at
physical position `p` after `t` layers (`t ≤ n`); proved below to agree
with `vmAfter`.  A logical qubit starting at an even position travels
right, pauses one layer at the right wall, then travels left; one
starting at an odd position travels left, pauses one layer at position
0, then travels right. -/
def w (n t p : ℕ) : ℕ :=
  if (p + t) % 2 = 0 then (if t ≤ p then p - t else t - p - 1)
  else (if p + t < n then p + t else 2 * n - 1 - p - t)

/-- The physical position swapped with `p` in the layer-`ℓ` cover (`p`
itself when `p` is idle in that layer). -/
def partner (n ℓ p : ℕ) : ℕ :=
  if (p + ℓ) % 2 = 0 then (if p + 1 < n then p + 1 else p)
  else (if p = 0 then p else p - 1)

/-- All cover pairs of the `n` layers, in processing order. -/
def networkPairs (n : ℕ) : List (ℕ × ℕ) :=
  (List.range n).flatMap fun ℓ => layerCover n ℓ

/-- One step of the recording fold: perform the swap and record the
logical pair read (before the swap) at the processed physical pair. -/
def recStep (st : List ℕ × List (ℕ × ℕ)) (p : ℕ × ℕ) : List ℕ × List (ℕ × ℕ) :=
  (swapEntries st.1 p.1 p.2, st.2 ++ [(st.1.getD p.1 0, st.1.getD p.2 0)])

/-- The logical pairs looked up in the Hamiltonian scan, step by step:
the recording counterpart of the generation loop (same covers, same
virtual-map updates, pairs read before the swap). -/
def runPairs (n : ℕ) : List (ℕ × ℕ) :=
  ((networkPairs n).foldl recStep (List.range n, [])).2

/-- The closed form of the logical pair looked up at layer `ℓ` for cover
pair `p`. -/
def stepPairs (n ℓ : ℕ) : List (ℕ × ℕ) :=
  (layerCover n ℓ).map fun p => (w n ℓ p.1, w n ℓ p.2)

/-- Gates of the generated circuit; rotation angles are exact rationals. -/
inductive Gate : Type
  | H (q : ℕ)
  | CNOT (a b : ℕ)
  | Rz (angle : ℚ) (q : ℕ)
  | Rx (angle : ℚ) (q : ℕ)
  | Measure
  deriving DecidableEq, Repr

/-- The linear scan
`for edge in Hamiltonian: if v_i == edge[0] and v_j == edge[1]: weight = edge[2]`;
`w0` is the previous value of the Python variable `weight` (`none` before
the first assignment). -/
def lookupWeight (H : List (ℕ × ℕ × ℤ)) (vi vj : ℕ) (w0 : Option ℤ) : Option ℤ :=
  H.foldl (fun acc e => if e.1 = vi ∧ e.2.1 = vj then some e.2.2 else acc) w0

/-- The mutable state of the generation loop: the virtual map, the last
value of the Python variable `weight`, and the gates emitted so far. -/
structure SwapNetState : Type where
  vm : List ℕ
  wt : Option ℤ
  gates : List Gate

/-- Process one cover pair: read the logical qubits, scan the
Hamiltonian (`none` models the Python `NameError` when `weight` has never
been assigned), emit the ZZ+SWAP sequence
`CNOT(i,j); rz(2·γ·weight)(j); CNOT(j,i); CNOT(i,j)` and update the
virtual map. -/
def processPair (H : List (ℕ × ℕ × ℤ)) (γ : ℚ) (st : SwapNetState) (p : ℕ × ℕ) :
    Option SwapNetState :=
  match lookupWeight H (st.vm.getD p.1 0) (st.vm.getD p.2 0) st.wt with
  | none => none
  | some wt =>
    some { vm := swapEntries st.vm p.1 p.2,
           wt := some wt,
           gates := st.gates
             ++ [Gate.CNOT p.1 p.2, Gate.Rz (2 * (γ * (wt : ℚ))) p.2,
                 Gate.CNOT p.2 p.1, Gate.CNOT p.1 p.2] }

/-- Embedding of `_gen_swap_network`: the initial Hadamard layer, the
swap-network phase separator, the `rx(β)` mixing layer, and the final
measurement. -/
def genSwapNetwork (n : ℕ) (γ β : ℚ) (H : List (ℕ × ℕ × ℤ)) : Option (List Gate) :=
  ((networkPairs n).foldlM (processPair H γ)
      { vm := List.range n, wt := none, gates := (List.range n).map Gate.H }).map
    fun st =>
      st.gates ++ ((List.range n).map fun q => Gate.Rx β q) ++ [Gate.Measure]

/-- The number of two-qubit interaction primitives (CNOT gates) of a
gate list. -/
def countCNOT (gates : List Gate) : ℕ :=
  gates.countP fun g => match g with | Gate.CNOT _ _ => true | _ => false

end Supermarq

namespace Supermarq

/-! Helper lemmas -/

theorem sum_map_indicator (n i : ℕ) (c : ℕ) :
    (((List.range n).map fun k => if k = i then c else 0).sum)
      = if i < n then c else 0 := by
  induction n with
  | zero => simp
  | succ m ih =>
    rw [List.range_succ, List.map_append, List.sum_append]
    simp only [List.map_cons, List.map_nil, List.sum_cons, List.sum_nil]
    by_cases hmi : m = i
    · subst hmi
      have : ((List.range m).map fun k => if k = m then c else 0).sum
          = ((List.range m).map fun _ => (0 : ℕ)).sum := by
        apply congrArg
        apply List.map_congr_left
        intro a ha
        simp only [List.mem_range] at ha
        simp [Nat.ne_of_lt ha]
      simp [this]
    · rw [ih]
      by_cases him : i < m
      · simp [him, Nat.lt_succ_of_lt him, hmi]
      · have : ¬ i < m + 1 := by omega
        simp [him, this, hmi]

theorem countP_flatMap {α β : Type} (l : List α) (f : α → List β) (p : β → Bool) :
    (l.flatMap f).countP p = ((l.map fun a => (f a).countP p).sum) := by
  induction l with
  | nil => simp
  | cons a as ih => simp [List.flatMap_cons, List.countP_append, ih]

theorem countP_range_eq (n j : ℕ) :
    (List.range n).countP (fun k => k = j) = if j < n then 1 else 0 := by
  induction n with
  | zero => simp
  | succ m ih =>
    rw [List.range_succ, List.countP_append, ih]
    by_cases hjm : j = m
    · subst hjm; simp
    · by_cases hj : j < m
      · have : j < m + 1 := by omega
        simp [hj, this, List.countP_cons, hjm, Ne.symm hjm]
      · have : ¬ j < m + 1 := by omega
        simp [hj, this, List.countP_cons, Ne.symm hjm]

theorem sum_map_add_one (l : List ℕ) (f : ℕ → ℕ) :
    (l.map fun a => f a + 1).sum = (l.map f).sum + l.length := by
  induction l with
  | nil => simp
  | cons a as ih => simp [ih]; omega

/-! ## C6 support: properties of `skPairs` -/

theorem skPairs_length (n : ℕ) : 2 * (skPairs n).length = n * (n - 1) := by
  have hinner : ∀ m i : ℕ,
      (((List.range m).map fun j => (i, j)).filter fun p => p.1 < p.2).length
        = m - i - 1 := by
    intro m i
    induction m with
    | zero => simp
    | succ k ihk =>
      rw [List.range_succ, List.map_append, List.filter_append, List.length_append, ihk]
      by_cases hik : i < k
      · simp only [List.map_cons, List.map_nil]
        rw [List.filter_cons]
        simp only [decide_eq_true_eq]
        simp [hik]
        omega
      · simp only [List.map_cons, List.map_nil]
        rw [List.filter_cons]
        simp only [decide_eq_true_eq]
        simp [hik]
        omega
  have hlen : ∀ m, ((List.range m).map fun i => m - i - 1).sum * 2 = m * (m - 1) := by
    intro m
    induction m with
    | zero => simp
    | succ k ihk =>
      rw [List.range_succ, List.map_append, List.sum_append]
      simp only [List.map_cons, List.map_nil, List.sum_cons, List.sum_nil]
      have hcongr : (List.range k).map (fun i => k + 1 - i - 1)
          = (List.range k).map fun i => (k - i - 1) + 1 := by
        apply List.map_congr_left
        intro a ha
        simp only [List.mem_range] at ha
        omega
      rw [hcongr, sum_map_add_one, List.length_range]
      have h0 : k + 1 - k - 1 = 0 := by omega
      rw [h0]
      have hsq : (k + 1) * (k + 1 - 1) = k * (k - 1) + 2 * k := by
        cases k with
        | zero => rfl
        | succ m =>
          simp only [Nat.add_sub_cancel]
          ring
      rw [hsq]
      omega
  unfold skPairs
  rw [List.length_flatMap]
  have hmapeq : ((List.range n).map
        (List.length ∘ fun i =>
          ((List.range n).map fun j => (i, j)).filter fun p => p.1 < p.2))
      = (List.range n).map fun i => n - i - 1 := by
    apply List.map_congr_left
    intro a _
    exact hinner n a
  rw [hmapeq]
  have := hlen n
  omega

theorem skPairs_countP (n i j : ℕ) (hij : i < j) (hjn : j < n) :
    (skPairs n).countP (fun p => p = (i, j)) = 1 := by
  unfold skPairs
  rw [countP_flatMap]
  have hmap : ((List.range n).map fun a =>
        ((((List.range n).map fun b => (a, b)).filter fun p => p.1 < p.2).countP
          fun p => p = (i, j)))
      = (List.range n).map fun a => if a = i then 1 else 0 := by
    apply List.map_congr_left
    intro a _
    rw [List.countP_filter, List.countP_map]
    by_cases hai : a = i
    · have heq : ((fun p => decide (p = (i, j)) && decide (p.1 < p.2)) ∘ fun b => (a, b))
          = fun b => decide (b = j) := by
        funext b
        simp only [Function.comp_apply, Bool.and_eq_true, decide_eq_true_eq,
          Prod.mk.injEq]
        by_cases hbj : b = j
        · subst hbj
          simp [hai, hij]
        · simp [hbj]
      rw [heq, countP_range_eq]
      simp [hai, hjn]
    · have heq : ((fun p => decide (p = (i, j)) && decide (p.1 < p.2)) ∘ fun b => (a, b))
          = fun _ => false := by
        funext b
        simp only [Function.comp_apply, Bool.and_eq_true, decide_eq_true_eq,
          Prod.mk.injEq]
        simp [hai]
      rw [heq]
      simp [hai]
  rw [hmap, sum_map_indicator]
  have hin : i < n := by omega
  simp [hin]

/-! ## C6 support: properties of `skBuild` -/

theorem skBuild_spec (ps : List (ℕ × ℕ)) :
    ∀ ws : List ℤ, ps.length ≤ ws.length →
      ∃ H, skBuild ps ws = some H ∧
        (H.map fun e => (e.1, e.2.1)) = ps ∧ ∀ e ∈ H, e.2.2 ∈ ws := by
  induction ps with
  | nil =>
    intro ws _
    exact ⟨[], rfl, rfl, by simp⟩
  | cons p ps ih =>
    intro ws hlen
    obtain ⟨i, j⟩ := p
    have hne : ws ≠ [] := by
      intro h
      subst h
      simp at hlen
    obtain ⟨w, hw⟩ : ∃ w, ws.getLast? = some w := by
      cases hws : ws.getLast? with
      | none => exact absurd (List.getLast?_eq_none_iff.mp hws) hne
      | some w => exact ⟨w, rfl⟩
    have hdl : ps.length ≤ ws.dropLast.length := by
      rw [List.length_dropLast]
      simp only [List.length_cons] at hlen
      omega
    obtain ⟨H, hH, hmap, hmem⟩ := ih ws.dropLast hdl
    refine ⟨(i, j, w) :: H, ?_, ?_, ?_⟩
    · simp only [skBuild]
      rw [hw, hH]
      rfl
    · simp [hmap]
    · intro e he
      rcases List.mem_cons.mp he with he | he
      · subst he
        exact List.mem_of_mem_getLast? (Option.mem_def.mpr hw)
      · exact List.mem_of_mem_dropLast (hmem e he)

/-! ## C1 support: the best-so-far fold -/

theorem genAnglesFold_cases (runs : List (List ℚ × ℚ)) :
    ∀ acc : List ℚ × ℚ,
      (runs.foldl (fun best r => if r.2 < best.2 then r else best) acc = acc
          ∧ ∀ x ∈ runs, acc.2 ≤ x.2)
      ∨ (∃ x ∈ runs,
          runs.foldl (fun best r => if r.2 < best.2 then r else best) acc = x
            ∧ x.2 < acc.2 ∧ ∀ y ∈ runs, x.2 ≤ y.2) := by
  induction runs with
  | nil => intro acc; left; simp
  | cons r rs ih =>
    intro acc
    simp only [List.foldl_cons]
    by_cases hr : r.2 < acc.2
    · rw [if_pos hr]
      rcases ih r with ⟨heq, hall⟩ | ⟨x, hx, heq, hlt, hall⟩
      · right
        exact ⟨r, List.mem_cons_self r rs, heq, hr, by
          intro y hy
          rcases List.mem_cons.mp hy with hy | hy
          · subst hy; exact le_refl _
          · exact hall y hy⟩
      · right
        refine ⟨x, List.mem_cons_of_mem r hx, heq, lt_trans hlt hr, ?_⟩
        intro y hy
        rcases List.mem_cons.mp hy with hy | hy
        · subst hy; exact le_of_lt hlt
        · exact hall y hy
    · rw [if_neg hr]
      push_neg at hr
      rcases ih acc with ⟨heq, hall⟩ | ⟨x, hx, heq, hlt, hall⟩
      · left
        refine ⟨heq, ?_⟩
        intro y hy
        rcases List.mem_cons.mp hy with hy | hy
        · subst hy; exact hr
        · exact hall y hy
      · right
        refine ⟨x, List.mem_cons_of_mem r hx, heq, hlt, ?_⟩
        intro y hy
        rcases List.mem_cons.mp hy with hy | hy
        · subst hy; exact le_trans (le_of_lt hlt) hr
        · exact hall y hy

end Supermarq

namespace Supermarq

/-! ## Claim C1

The claim states that EVERY variational benchmark performs exactly five
optimization restarts folded through the best-so-far loop with the best
cost initialized to `0.0` and the empty-list placeholder.  This is true of
the two QAOA proxies (`QAOAFermionicSwapProxy._gen_angles`,
`QAOAVanillaProxy._gen_angles`) but false of `VQEProxy._gen_angles`,
which performs a single run and returns its parameters unconditionally. -/

/-- C1 (counterexample): `VQEProxy._gen_angles` returns the parameters of
its single optimization run even when that run's cost is nonnegative
(here cost `1 ≥ 0`), instead of keeping an empty placeholder — refuting
the claim for the VQE variational benchmark. -/
theorem claim_C1_counterexample :
    (0 : ℚ) ≤ 1 ∧ vqeGenAngles ([2], 1) = [2]
      ∧ vqeGenAngles ([2], 1) ≠ ([] : List ℚ) := by
  refine ⟨by norm_num, rfl, by simp [vqeGenAngles]⟩

/-- C1 (amended): for the two QAOA proxies, `_gen_angles` folds the
outcomes of exactly five restarts with the running best cost initialized
to `0.0`: if no restart achieves a strictly negative cost the returned
parameter vector is the initial empty placeholder, and otherwise the
returned vector is that of a restart achieving the lowest cost (the
first such restart on ties).  `VQEProxy._gen_angles` instead performs a
single run and returns its parameters unconditionally. -/
theorem claim_C1_amended (run : ℕ → List ℚ × ℚ) (r : List ℚ × ℚ) :
    ((∀ k, k < 5 → 0 ≤ (run k).2) → qaoaGenAngles run = [])
    ∧ ((∃ k, k < 5 ∧ (run k).2 < 0) →
        ∃ k, k < 5 ∧ qaoaGenAngles run = (run k).1 ∧ (run k).2 < 0 ∧
          ∀ m, m < 5 → (run k).2 ≤ (run m).2)
    ∧ vqeGenAngles r = r.1 := by
  refine ⟨?_, ?_, rfl⟩
  · intro hpos
    rcases genAnglesFold_cases ((List.range 5).map run) ([], 0) with
      ⟨heq, _⟩ | ⟨x, hx, _, hlt, _⟩
    · unfold qaoaGenAngles genAnglesFold
      rw [heq]
    · exfalso
      obtain ⟨k, hk, hkx⟩ := List.mem_map.mp hx
      rw [List.mem_range] at hk
      have := hpos k hk
      rw [hkx] at this
      exact absurd (lt_of_lt_of_le hlt this) (by norm_num)
  · rintro ⟨k, hk5, hkneg⟩
    rcases genAnglesFold_cases ((List.range 5).map run) ([], 0) with
      ⟨_, hall⟩ | ⟨x, hx, heq, _, hall⟩
    · exfalso
      have hmem : run k ∈ (List.range 5).map run :=
        List.mem_map.mpr ⟨k, List.mem_range.mpr hk5, rfl⟩
      exact absurd (lt_of_lt_of_le hkneg (hall _ hmem)) (by norm_num)
    · obtain ⟨m, hm, hmx⟩ := List.mem_map.mp hx
      rw [List.mem_range] at hm
      refine ⟨m, hm, ?_, ?_, ?_⟩
      · unfold qaoaGenAngles genAnglesFold
        rw [heq, hmx]
      · rw [hmx]
        have hmem : run k ∈ (List.range 5).map run :=
          List.mem_map.mpr ⟨k, List.mem_range.mpr hk5, rfl⟩
        exact lt_of_le_of_lt (hall _ hmem) hkneg
      · intro m' hm'
        rw [hmx]
        exact hall _ (List.mem_map.mpr ⟨m', List.mem_range.mpr hm', rfl⟩)

/-- C1 (witness): the amended theorem applied to two concrete restart
sequences: one with all costs nonnegative (yielding the empty
placeholder) and one with negative costs (yielding the parameters of the
best restart). -/
theorem claim_C1_witness :
    qaoaGenAngles (fun j : ℕ => ([(j : ℚ)], (j : ℚ))) = []
    ∧ ∃ k, k < 5
        ∧ qaoaGenAngles (fun j : ℕ => ([(j : ℚ)], (j : ℚ) - 4))
            = ((fun j : ℕ => ([(j : ℚ)], (j : ℚ) - 4)) k).1
        ∧ ((fun j : ℕ => ([(j : ℚ)], (j : ℚ) - 4)) k).2 < 0
        ∧ ∀ m, m < 5 →
            ((fun j : ℕ => ([(j : ℚ)], (j : ℚ) - 4)) k).2
              ≤ ((fun j : ℕ => ([(j : ℚ)], (j : ℚ) - 4)) m).2 := by
  constructor
  · exact (claim_C1_amended (fun j : ℕ => ([(j : ℚ)], (j : ℚ))) ([9], 9)).1
      (fun k _ => by positivity)
  · exact (claim_C1_amended (fun j : ℕ => ([(j : ℚ)], (j : ℚ) - 4)) ([9], 9)).2.1
      ⟨0, by norm_num, by norm_num⟩

/-! ## Claim C5 -/

/-- C5: construction fails exactly when validated parameters are
unsupported: `MerminBell.__init__` raises for every qubit count other
than 3 or 4 and succeeds for 3 and 4; `PhaseCode.__init__` raises
exactly when the length of `phase_state` differs from the declared
number of data qubits. -/
theorem claim_C5 (n d r : ℕ) (ps : List ℕ) :
    ((∃ m, merminBellInit n = .ok m) ↔ (n = 3 ∨ n = 4))
    ∧ ((∃ v, phaseCodeInit d r ps = .ok v) ↔ ps.length = d) := by
  constructor
  · unfold merminBellInit
    by_cases h3 : n = 3
    · simp [h3]
    · by_cases h4 : n = 4
      · simp [h4]
      · simp [h3, h4]
  · unfold phaseCodeInit
    by_cases hl : ps.length = d
    · simp [hl]
    · simp [hl]

/-! ## Claim C6 -/

/-- C6: for every `n`, the Sherrington-Kirkpatrick generator (run on the
`n(n-1)/2` raw binary draws of `np.random.randint`) succeeds, and every
shuffle of its result is a list of exactly `n(n-1)/2` terms containing
each unordered qubit pair `(i, j)` with `i < j` exactly once, with every
weight equal to `+1` or `-1`. -/
theorem claim_C6 (n : ℕ) (bits : List ℕ)
    (hlen : bits.length = n * (n - 1) / 2) (hbits : ∀ b ∈ bits, b < 2) :
    ∃ H, genSkHamiltonian n bits = some H ∧
      ∀ H' : List (ℕ × ℕ × ℤ), H'.Perm H →
        H'.length = n * (n - 1) / 2
        ∧ (∀ i j, i < j → j < n →
            H'.countP (fun e => e.1 = i ∧ e.2.1 = j) = 1)
        ∧ (∀ e ∈ H', e.2.2 = 1 ∨ e.2.2 = -1) := by
  have hsk2 := skPairs_length n
  have hwslen : (bits.map fun b : ℕ => 2 * (b : ℤ) - 1).length = bits.length :=
    List.length_map _ _
  have hle : (skPairs n).length ≤ (bits.map fun b : ℕ => 2 * (b : ℤ) - 1).length := by
    rw [hwslen, hlen]
    omega
  obtain ⟨H, hH, hmap, hmem⟩ := skBuild_spec (skPairs n) _ hle
  refine ⟨H, hH, ?_⟩
  intro H' hperm
  refine ⟨?_, ?_, ?_⟩
  · have h1 : H'.length = H.length := hperm.length_eq
    have h2 : H.length = (skPairs n).length := by
      rw [← hmap, List.length_map]
    rw [h1, h2]
    omega
  · intro i j hij hjn
    have hc : H'.countP (fun e => decide (e.1 = i ∧ e.2.1 = j))
        = H.countP (fun e => decide (e.1 = i ∧ e.2.1 = j)) :=
      hperm.countP_eq _
    have hc2 : H.countP (fun e => decide (e.1 = i ∧ e.2.1 = j))
        = (H.map fun e => (e.1, e.2.1)).countP (fun p => p = (i, j)) := by
      rw [List.countP_map]
      apply List.countP_congr
      intro e _
      simp only [Function.comp_apply, decide_eq_decide, Prod.mk.injEq]
    rw [hc, hc2, hmap, skPairs_countP n i j hij hjn]
  · intro e he
    have := hmem e (hperm.mem_iff.mp he)
    obtain ⟨b, hb, hbe⟩ := List.mem_map.mp this
    have hb2 := hbits b hb
    interval_cases b
    · rw [← hbe]
      norm_num
    · rw [← hbe]
      norm_num

/-- C6 (witness): the generator at `n = 3` with draws `[0, 1, 1]`. -/
theorem claim_C6_witness :
    ∃ H, genSkHamiltonian 3 [0, 1, 1] = some H ∧
      ∀ H' : List (ℕ × ℕ × ℤ), H'.Perm H →
        H'.length = 3 * (3 - 1) / 2
        ∧ (∀ i j, i < j → j < 3 →
            H'.countP (fun e => e.1 = i ∧ e.2.1 = j) = 1)
        ∧ (∀ e ∈ H', e.2.2 = 1 ∨ e.2.2 = -1) :=
  claim_C6 3 [0, 1, 1] (by decide) (by decide)

/-! ## Claim C9 -/

/-- C9: for every `n ≥ 1`, `VQEProxy._gen_tfim_Hamiltonian` (a pure,
deterministic function of `n`) returns a Hamiltonian with exactly one
single-qubit `X` term per qubit and exactly one `ZZ` term per adjacent
ring pair including the wraparound pair `(n-1, 0)` — `2n` terms in
total, every term having weight 1, and nothing else. -/
theorem claim_C9 (n : ℕ) (hn : 1 ≤ n) :
    (genTfimHamiltonian n).length = 2 * n
    ∧ (∀ i : ℕ, i < n →
        (genTfimHamiltonian n).countP (fun t => t = TfimTerm.X i 1) = 1)
    ∧ (∀ i : ℕ, i + 1 < n →
        (genTfimHamiltonian n).countP (fun t => t = TfimTerm.ZZ i (i + 1) 1) = 1)
    ∧ (genTfimHamiltonian n).countP (fun t => t = TfimTerm.ZZ ((n : ℤ) - 1) 0 1) = 1
    ∧ (∀ t ∈ genTfimHamiltonian n, t.weight = 1)
    ∧ (∀ t ∈ genTfimHamiltonian n,
        (∃ i : ℕ, i < n ∧ t = TfimTerm.X i 1)
        ∨ (∃ i : ℕ, i + 1 < n ∧ t = TfimTerm.ZZ i (i + 1) 1)
        ∨ t = TfimTerm.ZZ ((n : ℤ) - 1) 0 1) := by
  unfold genTfimHamiltonian
  refine ⟨?_, ?_, ?_, ?_, ?_, ?_⟩
  · simp only [List.length_append, List.length_map, List.length_range,
      List.length_cons, List.length_nil]
    omega
  · intro i hi
    rw [List.countP_append, List.countP_append, List.countP_map, List.countP_map]
    have h1 : ((fun t => decide (t = TfimTerm.X (i : ℤ) 1)) ∘
          fun k : ℕ => TfimTerm.X (k : ℤ) 1) = fun k : ℕ => decide (k = i) := by
      funext k
      simp only [Function.comp_apply, decide_eq_decide, TfimTerm.X.injEq, and_true,
        Nat.cast_inj]
    have h2 : ((fun t => decide (t = TfimTerm.X (i : ℤ) 1)) ∘
          fun k : ℕ => TfimTerm.ZZ (k : ℤ) ((k : ℤ) + 1) 1) = fun _ : ℕ => false := by
      funext k
      simp
    rw [h1, h2, countP_range_eq]
    simp [hi]
  · intro i hi
    rw [List.countP_append, List.countP_append, List.countP_map, List.countP_map]
    have h1 : ((fun t => decide (t = TfimTerm.ZZ (i : ℤ) ((i : ℤ) + 1) 1)) ∘
          fun k : ℕ => TfimTerm.X (k : ℤ) 1) = fun _ : ℕ => false := by
      funext k
      simp
    have h2 : ((fun t => decide (t = TfimTerm.ZZ (i : ℤ) ((i : ℤ) + 1) 1)) ∘
          fun k : ℕ => TfimTerm.ZZ (k : ℤ) ((k : ℤ) + 1) 1)
        = fun k : ℕ => decide (k = i) := by
      funext k
      simp only [Function.comp_apply, decide_eq_decide, TfimTerm.ZZ.injEq, and_true,
        Nat.cast_inj]
      constructor
      · rintro ⟨h, -⟩
        exact h
      · rintro rfl
        exact ⟨rfl, rfl⟩
    have h3 : (TfimTerm.ZZ ((n : ℤ) - 1) 0 1 = TfimTerm.ZZ (i : ℤ) ((i : ℤ) + 1) 1)
        = False := by
      simp only [TfimTerm.ZZ.injEq, eq_iff_iff, iff_false]
      rintro ⟨-, h, -⟩
      omega
    rw [h1, h2, countP_range_eq]
    simp only [List.countP_cons, List.countP_nil, decide_eq_true_eq, h3]
    have : i < n - 1 := by omega
    simp [this]
  · rw [List.countP_append, List.countP_append, List.countP_map, List.countP_map]
    have h1 : ((fun t => decide (t = TfimTerm.ZZ ((n : ℤ) - 1) 0 1)) ∘
          fun k : ℕ => TfimTerm.X (k : ℤ) 1) = fun _ : ℕ => false := by
      funext k
      simp
    have h2 : ((fun t => decide (t = TfimTerm.ZZ ((n : ℤ) - 1) 0 1)) ∘
          fun k : ℕ => TfimTerm.ZZ (k : ℤ) ((k : ℤ) + 1) 1) = fun _ : ℕ => false := by
      funext k
      simp only [Function.comp_apply, TfimTerm.ZZ.injEq, decide_eq_false_iff_not]
      rintro ⟨-, h, -⟩
      omega
    rw [h1, h2]
    simp
  · intro t ht
    rcases List.mem_append.mp ht with h | h
    · rcases List.mem_append.mp h with h | h
      · obtain ⟨k, -, hk⟩ := List.mem_map.mp h
        rw [← hk]
        rfl
      · obtain ⟨k, -, hk⟩ := List.mem_map.mp h
        rw [← hk]
        rfl
    · rcases List.mem_cons.mp h with h | h
      · rw [h]
        rfl
      · exact absurd h (List.not_mem_nil t)
  · intro t ht
    rcases List.mem_append.mp ht with h | h
    · rcases List.mem_append.mp h with h | h
      · obtain ⟨k, hk, hkt⟩ := List.mem_map.mp h
        rw [List.mem_range] at hk
        exact Or.inl ⟨k, hk, hkt.symm⟩
      · obtain ⟨k, hk, hkt⟩ := List.mem_map.mp h
        rw [List.mem_range] at hk
        exact Or.inr (Or.inl ⟨k, by omega, hkt.symm⟩)
    · rcases List.mem_cons.mp h with h | h
      · exact Or.inr (Or.inr h)
      · exact absurd h (List.not_mem_nil t)

/-! ## Claim C2

The claim states the energy-deviation score formula with an absolute
value in the denominator (`2 * |ideal_energy|`) for all three
variational benchmarks.  `VQEProxy.score` indeed divides by
`abs(2 * ideal_H)`, but both QAOA proxies divide by the signed
`2 * H_ideal` (qaoa_fermionic_swap_proxy.py:171, qaoa_vanilla_proxy.py:143),
which differs from the claimed formula whenever the ideal energy is
negative. -/

/-- C2 (counterexample): a Hamiltonian with the single edge `(0, 1, +1)`,
ideal distribution concentrated on `00` (ideal energy `-1`) and
experimental counts concentrated on `01` (experimental energy `+1`):
the vanilla QAOA scorer returns `2`, while the claimed formula
`1 - |ideal - experimental| / (2 * |ideal|)` evaluates to `0`. -/
theorem claim_C2_counterexample :
    expectedH [(0, 1, 1)] [([false, false], 1)] = -1
    ∧ qaoaVanillaScore [(0, 1, 1)] [([false, false], 1)] [([false, true], 1)] = some 2
    ∧ (1 - |(-1 : ℚ) - 1| / (2 * |(-1 : ℚ)|)) = 0 := by
  refine ⟨?_, ?_, by norm_num⟩
  · norm_num [expectedH, energyForBitstring, List.foldl_cons, List.foldl_nil] <;> decide
  · have h1 : expectedH [(0, 1, 1)] [([false, false], 1)] = -1 := by
      norm_num [expectedH, energyForBitstring, List.foldl_cons, List.foldl_nil] <;> decide
    have h2 : totalShots [([false, true], (1 : ℚ))] = 1 := by
      norm_num [totalShots]
    have h3 : expectedH [(0, 1, 1)] (normalizeCounts [([false, true], 1)]) = 1 := by
      norm_num [expectedH, energyForBitstring, normalizeCounts, totalShots,
        List.foldl_cons, List.foldl_nil] <;> decide
    rw [qaoaVanillaScore, if_neg (by rw [h2]; norm_num)]
    simp only [h1, h3]
    norm_num

/-- C2 (amended): under positive total shots, the two QAOA scorers return
`1 - |ideal - experimental| / (2 * ideal_energy)` with a signed
denominator (which coincides with the claimed
`1 - |ideal - experimental| / (2 * |ideal_energy|)` whenever the ideal
energy is positive), and the VQE scorer returns exactly the claimed
formula with the absolute denominator; ideal and experimental energies
are computed by the same Hamiltonian-expectation function from the ideal
distribution and the normalized (for the fermionic proxy, bit-reversed)
experimental distribution; a zero ideal energy is an unguarded division
by zero (`none`). -/
theorem claim_C2_amended (H : List (ℕ × ℕ × ℤ))
    (ideal counts idealZ idealX countsZ countsX : List (List Bool × ℚ)) :
    (0 < totalShots counts → expectedH H ideal ≠ 0 →
      qaoaVanillaScore H ideal counts
          = some (1 - |expectedH H ideal - expectedH H (normalizeCounts counts)|
              / (2 * expectedH H ideal))
        ∧ qaoaFermionicScore H ideal counts
          = some (1 - |expectedH H ideal - expectedH H (normalizeCountsRev counts)|
              / (2 * expectedH H ideal)))
    ∧ (0 < totalShots counts → 0 < expectedH H ideal →
      qaoaVanillaScore H ideal counts
          = some (1 - |expectedH H ideal - expectedH H (normalizeCounts counts)|
              / (2 * |expectedH H ideal|))
        ∧ qaoaFermionicScore H ideal counts
          = some (1 - |expectedH H ideal - expectedH H (normalizeCountsRev counts)|
              / (2 * |expectedH H ideal|)))
    ∧ (0 < totalShots countsZ → 0 < totalShots countsX →
        vqeExpectedH idealZ idealX ≠ 0 →
      vqeScore idealZ idealX countsZ countsX
        = some (1 - |vqeExpectedH idealZ idealX
              - vqeExpectedH (normalizeCounts countsZ) (normalizeCounts countsX)|
            / (2 * |vqeExpectedH idealZ idealX|)))
    ∧ (0 < totalShots counts → expectedH H ideal = 0 →
        qaoaVanillaScore H ideal counts = none
          ∧ qaoaFermionicScore H ideal counts = none)
    ∧ (0 < totalShots countsZ → 0 < totalShots countsX →
        vqeExpectedH idealZ idealX = 0 →
        vqeScore idealZ idealX countsZ countsX = none) := by
  refine ⟨?_, ?_, ?_, ?_, ?_⟩
  · intro ht hi
    constructor
    · simp only [qaoaVanillaScore, if_neg ht.ne', if_neg hi]
    · simp only [qaoaFermionicScore, if_neg ht.ne', if_neg hi]
  · intro ht hi
    have habs : |expectedH H ideal| = expectedH H ideal := abs_of_pos hi
    rw [habs]
    constructor
    · simp only [qaoaVanillaScore, if_neg ht.ne', if_neg hi.ne']
    · simp only [qaoaFermionicScore, if_neg ht.ne', if_neg hi.ne']
  · intro htz htx hi
    have hor : ¬ (totalShots countsZ = 0 ∨ totalShots countsX = 0) := by
      push_neg
      exact ⟨htz.ne', htx.ne'⟩
    have habs : |2 * vqeExpectedH idealZ idealX| = 2 * |vqeExpectedH idealZ idealX| := by
      rw [abs_mul]
      norm_num
    simp only [vqeScore, if_neg hor, if_neg hi, habs]
  · intro ht hi
    constructor
    · simp only [qaoaVanillaScore, if_neg ht.ne', if_pos hi]
    · simp only [qaoaFermionicScore, if_neg ht.ne', if_pos hi]
  · intro htz htx hi
    have hor : ¬ (totalShots countsZ = 0 ∨ totalShots countsX = 0) := by
      push_neg
      exact ⟨htz.ne', htx.ne'⟩
    simp only [vqeScore, if_neg hor, if_pos hi]

/-- C2 (witness): the amended theorem applied to concrete distributions
with positive total shots and positive (hence nonzero) ideal energies. -/
theorem claim_C2_witness :
    (qaoaVanillaScore [(0, 1, 1)] [([false, true], 1)] [([false, true], 2)]
        = some (1 - |expectedH [(0, 1, 1)] [([false, true], 1)]
            - expectedH [(0, 1, 1)] (normalizeCounts [([false, true], 2)])|
          / (2 * expectedH [(0, 1, 1)] [([false, true], 1)]))
      ∧ qaoaFermionicScore [(0, 1, 1)] [([false, true], 1)] [([false, true], 2)]
        = some (1 - |expectedH [(0, 1, 1)] [([false, true], 1)]
            - expectedH [(0, 1, 1)] (normalizeCountsRev [([false, true], 2)])|
          / (2 * expectedH [(0, 1, 1)] [([false, true], 1)])))
    ∧ vqeScore [([false], 1)] [([false], 1)] [([false], 3)] [([false], 5)]
        = some (1 - |vqeExpectedH [([false], 1)] [([false], 1)]
            - vqeExpectedH (normalizeCounts [([false], 3)])
                (normalizeCounts [([false], 5)])|
          / (2 * |vqeExpectedH [([false], 1)] [([false], 1)]|)) := by
  constructor
  · exact (claim_C2_amended [(0, 1, 1)] [([false, true], 1)] [([false, true], 2)]
      [] [] [] []).1
      (by norm_num [totalShots])
      (by norm_num [expectedH, energyForBitstring, List.foldl_cons,
            List.foldl_nil] <;> decide)
  · exact (claim_C2_amended [] [] [] [([false], 1)] [([false], 1)]
      [([false], 3)] [([false], 5)]).2.2.1
      (by norm_num [totalShots])
      (by norm_num [totalShots])
      (by norm_num [vqeExpectedH, vqeCalc, xBitLists, zBitLists, parityOnes,
        List.foldl_cons, List.foldl_nil, List.countP_cons, List.countP_nil])

/-! ## Claim C4 -/

/-- C4: for `n = 3` the Mermin operator derivation yields exactly the
four weighted Pauli strings `(+1, XXY), (+1, XYX), (+1, YXX), (-1, YYY)`
(in some order), and the scorers affinely rescale the accumulated
expectation `E` by `(E + 4) / 8` for `n = 3` and `(E + 8) / 16` for
`n = 4`, so that `E = ∓4` (resp. `∓8`) maps to scores `0` and `1`. -/
theorem claim_C4 (counts3 counts4 : List (List Bool × ℚ)) :
    ((merminOperator 3).map fun t => (t.1, pauliChars t.2)).Perm
        [((1 : ℤ), ['X', 'X', 'Y']), (1, ['X', 'Y', 'X']),
          (1, ['Y', 'X', 'X']), (-1, ['Y', 'Y', 'Y'])]
    ∧ (totalShots counts3 ≠ 0 →
        merminScoreN3 counts3 = some ((merminE3 counts3 + 4) / 8))
    ∧ (totalShots counts4 ≠ 0 →
        merminScoreN4 counts4 = some ((merminE4 counts4 + 8) / 16))
    ∧ (((-4 : ℚ) + 4) / 8 = 0 ∧ ((4 : ℚ) + 4) / 8 = 1
        ∧ ((-8 : ℚ) + 8) / 16 = 0 ∧ ((8 : ℚ) + 8) / 16 = 1) := by
  refine ⟨by decide, ?_, ?_, by norm_num⟩
  · intro ht
    have hop : merminOperator 3
        = [(1, [true, false, false]), (1, [false, true, false]),
            (1, [false, false, true]), (-1, [true, true, true])] := by decide
    rw [merminScoreN3, if_neg ht, merminAccum, hop]
    simp only [List.foldlM_cons, List.foldlM_nil, n3Table, Option.map_some,
      Option.bind_eq_bind, Option.some_bind, if_true, if_false,
      List.cons.injEq, Bool.true_eq_false, Bool.false_eq_true, and_true,
      and_false, false_and, if_neg, ite_true, ite_false, reduceIte]
    rw [merminE3]
    field_simp
    ring
  · intro ht
    have hop : merminOperator 4
        = [(1, [true, false, false, false]), (1, [false, true, false, false]),
            (1, [false, false, true, false]), (-1, [true, true, true, false]),
            (1, [false, false, false, true]), (-1, [true, true, false, true]),
            (-1, [true, false, true, true]), (-1, [false, true, true, true])] := by decide
    rw [merminScoreN4, if_neg ht, merminAccum, hop]
    simp only [List.foldlM_cons, List.foldlM_nil, n4Table, Option.map_some,
      Option.bind_eq_bind, Option.some_bind, if_true, if_false,
      List.cons.injEq, Bool.true_eq_false, Bool.false_eq_true, and_true,
      and_false, false_and, if_neg, ite_true, ite_false, reduceIte]
    rw [merminE4]
    field_simp
    ring

/-- C4 (witness): the scorers applied to concrete single-bitstring
distributions with nonzero total count. -/
theorem claim_C4_witness :
    merminScoreN3 [([true, true, true], 1)]
        = some ((merminE3 [([true, true, true], 1)] + 4) / 8)
    ∧ merminScoreN4 [([true, true, true, true], 1)]
        = some ((merminE4 [([true, true, true, true], 1)] + 8) / 16) :=
  ⟨(claim_C4 [([true, true, true], 1)] []).2.1 (by norm_num [totalShots]),
    (claim_C4 [] [([true, true, true, true], 1)]).2.2.1 (by norm_num [totalShots])⟩

/-! ## Claim C7

The formula, symmetry and boundedness of the Hellinger fidelity hold; the
claim's final conjunct fails as stated: two distinct probability
distributions can agree on their shared support (each carrying extra mass
on keys outside the other's support) while the fidelity stays below 1.
The fidelity equals 1 exactly when the distributions agree everywhere. -/

/-- C7 (counterexample): `p = {0 ↦ 1/2, 1 ↦ 1/2}` and
`q = {0 ↦ 1/2, 2 ↦ 1/2}` are identical on their shared support `{0}`,
yet their Hellinger fidelity is `1/4 ≠ 1`. -/
theorem claim_C7_counterexample :
    (∀ x ∈ (({0, 1} : Finset ℕ) ∩ {0, 2}),
        (fun x : ℕ => if x = 0 then (1 / 2 : ℝ) else if x = 1 then 1 / 2 else 0) x
          = (fun x : ℕ => if x = 0 then (1 / 2 : ℝ) else if x = 2 then 1 / 2 else 0) x)
    ∧ hellingerFidelity {0, 1}
        (fun x : ℕ => if x = 0 then (1 / 2 : ℝ) else if x = 1 then 1 / 2 else 0)
        (fun x : ℕ => if x = 0 then (1 / 2 : ℝ) else if x = 2 then 1 / 2 else 0) = 1 / 4
    ∧ ((1 / 4 : ℝ) ≠ 1) := by
  have hinter : (({0, 1} : Finset ℕ) ∩ {0, 2}) = {0} := by decide
  refine ⟨?_, ?_, by norm_num⟩
  · intro x hx
    rw [hinter, Finset.mem_singleton] at hx
    subst hx
    norm_num
  · rw [hellingerFidelity]
    have h01 : (0 : ℕ) ∉ ({1} : Finset ℕ) := by decide
    rw [show ({0, 1} : Finset ℕ) = insert 0 {1} from rfl, Finset.sum_insert h01,
      Finset.sum_singleton]
    norm_num

/-- C7 (amended): the Hellinger fidelity
`(Σ_x sqrt(p(x) · q(x)))^2` over the ideal key set (missing experimental
keys contributing 0) is symmetric in the two distributions, lies in
`[0, 1]`, and equals 1 if and only if the two probability distributions
are identical everywhere (agreement on the shared support alone is not
sufficient). -/
theorem claim_C7_amended (P Q : Finset ℕ) (p q : ℕ → ℝ)
    (hp0 : ∀ x, 0 ≤ p x) (hq0 : ∀ x, 0 ≤ q x)
    (hpS : ∀ x ∉ P, p x = 0) (hqS : ∀ x ∉ Q, q x = 0)
    (hp1 : ∑ x ∈ P, p x = 1) (hq1 : ∑ x ∈ Q, q x = 1) :
    hellingerFidelity P p q = hellingerFidelity Q q p
    ∧ 0 ≤ hellingerFidelity P p q
    ∧ hellingerFidelity P p q ≤ 1
    ∧ (hellingerFidelity P p q = 1 ↔ ∀ x, p x = q x) := by
  classical
  set S := P ∪ Q with hS
  have hTP : ∑ k ∈ P, Real.sqrt (p k * q k) = ∑ k ∈ S, Real.sqrt (p k * q k) :=
    Finset.sum_subset Finset.subset_union_left
      (fun x _ hx => by rw [hpS x hx, zero_mul, Real.sqrt_zero])
  have hTQ : ∑ k ∈ Q, Real.sqrt (q k * p k) = ∑ k ∈ S, Real.sqrt (q k * p k) :=
    Finset.sum_subset Finset.subset_union_right
      (fun x _ hx => by rw [hqS x hx, zero_mul, Real.sqrt_zero])
  have hcomm : ∑ k ∈ S, Real.sqrt (q k * p k) = ∑ k ∈ S, Real.sqrt (p k * q k) :=
    Finset.sum_congr rfl fun x _ => by rw [mul_comm]
  have hpsum : ∑ k ∈ S, p k = 1 := by
    rw [← hp1]
    exact (Finset.sum_subset Finset.subset_union_left (fun x _ hx => hpS x hx)).symm
  have hqsum : ∑ k ∈ S, q k = 1 := by
    rw [← hq1]
    exact (Finset.sum_subset Finset.subset_union_right (fun x _ hx => hqS x hx)).symm
  have hTnn : 0 ≤ ∑ k ∈ S, Real.sqrt (p k * q k) :=
    Finset.sum_nonneg fun x _ => Real.sqrt_nonneg _
  have hident : ∑ k ∈ S, (Real.sqrt (p k) - Real.sqrt (q k)) ^ 2
      = 2 - 2 * ∑ k ∈ S, Real.sqrt (p k * q k) := by
    have hterm : ∀ k ∈ S, (Real.sqrt (p k) - Real.sqrt (q k)) ^ 2
        = p k + q k - 2 * Real.sqrt (p k * q k) := by
      intro k _
      rw [sub_sq, Real.sq_sqrt (hp0 k), Real.sq_sqrt (hq0 k), Real.sqrt_mul (hp0 k)]
      ring
    rw [Finset.sum_congr rfl hterm, Finset.sum_sub_distrib, Finset.sum_add_distrib,
      ← Finset.mul_sum, hpsum, hqsum]
    norm_num
  have hsqnn : 0 ≤ ∑ k ∈ S, (Real.sqrt (p k) - Real.sqrt (q k)) ^ 2 :=
    Finset.sum_nonneg fun x _ => sq_nonneg _
  have hT1 : ∑ k ∈ S, Real.sqrt (p k * q k) ≤ 1 := by nlinarith
  have hfid : hellingerFidelity P p q = (∑ k ∈ S, Real.sqrt (p k * q k)) ^ 2 := by
    rw [hellingerFidelity, hTP]
  refine ⟨?_, ?_, ?_, ?_⟩
  · rw [hellingerFidelity, hellingerFidelity, hTP, hTQ, hcomm]
  · rw [hfid]
    exact sq_nonneg _
  · rw [hfid]
    nlinarith
  · rw [hfid]
    constructor
    · intro h1
      have hTeq : ∑ k ∈ S, Real.sqrt (p k * q k) = 1 := by nlinarith
      have hzero : ∑ k ∈ S, (Real.sqrt (p k) - Real.sqrt (q k)) ^ 2 = 0 := by
        rw [hident, hTeq]
        ring
      have hall := (Finset.sum_eq_zero_iff_of_nonneg fun x _ => sq_nonneg _).mp hzero
      intro x
      by_cases hxS : x ∈ S
      · have hx0 := sub_eq_zero.mp (sq_eq_zero_iff.mp (hall x hxS))
        exact (Real.sqrt_inj (hp0 x) (hq0 x)).mp hx0
      · rw [hpS x (fun hP => hxS (Finset.mem_union_left _ hP)),
          hqS x (fun hQ => hxS (Finset.mem_union_right _ hQ))]
    · intro heq
      have hTeq : ∑ k ∈ S, Real.sqrt (p k * q k) = 1 := by
        rw [Finset.sum_congr rfl fun k _ => ?_, hpsum]
        rw [← heq k, Real.sqrt_mul_self (hp0 k)]
      rw [hTeq]
      norm_num

/-- C7 (witness): the amended theorem applied to the point distribution
on key 0 against itself. -/
theorem claim_C7_witness :
    hellingerFidelity {0} (fun x : ℕ => if x = 0 then (1 : ℝ) else 0)
        (fun x : ℕ => if x = 0 then (1 : ℝ) else 0)
      = hellingerFidelity {0} (fun x : ℕ => if x = 0 then (1 : ℝ) else 0)
        (fun x : ℕ => if x = 0 then (1 : ℝ) else 0)
    ∧ 0 ≤ hellingerFidelity {0} (fun x : ℕ => if x = 0 then (1 : ℝ) else 0)
        (fun x : ℕ => if x = 0 then (1 : ℝ) else 0)
    ∧ hellingerFidelity {0} (fun x : ℕ => if x = 0 then (1 : ℝ) else 0)
        (fun x : ℕ => if x = 0 then (1 : ℝ) else 0) ≤ 1
    ∧ (hellingerFidelity {0} (fun x : ℕ => if x = 0 then (1 : ℝ) else 0)
          (fun x : ℕ => if x = 0 then (1 : ℝ) else 0) = 1
        ↔ ∀ x : ℕ, (if x = 0 then (1 : ℝ) else 0) = (if x = 0 then (1 : ℝ) else 0)) :=
  claim_C7_amended {0} {0} _ _
    (fun x => by by_cases h : x = 0 <;> simp [h])
    (fun x => by by_cases h : x = 0 <;> simp [h])
    (fun x hx => by simp only [Finset.mem_singleton] at hx; simp [hx])
    (fun x hx => by simp only [Finset.mem_singleton] at hx; simp [hx])
    (by simp)
    (by simp)

/-- C9 (witness): the TFIM generator at `n = 6`. -/
theorem claim_C9_witness :
    (genTfimHamiltonian 6).length = 2 * 6
    ∧ (∀ i : ℕ, i < 6 →
        (genTfimHamiltonian 6).countP (fun t => t = TfimTerm.X i 1) = 1)
    ∧ (∀ i : ℕ, i + 1 < 6 →
        (genTfimHamiltonian 6).countP (fun t => t = TfimTerm.ZZ i (i + 1) 1) = 1)
    ∧ (genTfimHamiltonian 6).countP (fun t => t = TfimTerm.ZZ ((6 : ℤ) - 1) 0 1) = 1
    ∧ (∀ t ∈ genTfimHamiltonian 6, t.weight = 1)
    ∧ (∀ t ∈ genTfimHamiltonian 6,
        (∃ i : ℕ, i < 6 ∧ t = TfimTerm.X i 1)
        ∨ (∃ i : ℕ, i + 1 < 6 ∧ t = TfimTerm.ZZ i (i + 1) 1)
        ∨ t = TfimTerm.ZZ ((6 : ℤ) - 1) 0 1) :=
  claim_C9 6 (by decide)

/-! ## Swap-network support: cover normal forms -/

theorem coverA_eq (n : ℕ) :
    coverA n = (List.range (n / 2)).map fun i => (2 * i, 2 * i + 1) := by
  induction n with
  | zero => rfl
  | succ m ih =>
    have hsplit : coverA (m + 1)
        = coverA m ++ (if m % 2 = 1 then [(m - 1, m)] else []) := by
      rw [coverA, coverA, List.range_succ, List.filterMap_append]
      congr 1
      by_cases hm : m % 2 = 1
      · simp [hm]
      · simp [hm]
    rw [hsplit, ih]
    by_cases hm : m % 2 = 1
    · rw [if_pos hm]
      have h2 : (m + 1) / 2 = m / 2 + 1 := by omega
      rw [h2, List.range_succ, List.map_append]
      have hpair : ((m - 1 : ℕ), m) = (2 * (m / 2), 2 * (m / 2) + 1) := by
        simp only [Prod.mk.injEq]
        omega
      rw [hpair]
      rfl
    · rw [if_neg hm, List.append_nil]
      have h2 : (m + 1) / 2 = m / 2 := by omega
      rw [h2]

theorem coverB_eq (n : ℕ) :
    coverB n = (List.range ((n - 1) / 2)).map fun i => (2 * i + 1, 2 * i + 2) := by
  induction n with
  | zero => rfl
  | succ m ih =>
    have hsplit : coverB (m + 1)
        = coverB m ++ (if 2 ≤ m ∧ m % 2 = 0 then [(m - 1, m)] else []) := by
      rw [coverB, coverB, List.range_succ, List.filterMap_append]
      congr 1
      by_cases hm : 2 ≤ m ∧ m % 2 = 0
      · simp [hm]
      · simp [hm]
    rw [hsplit, ih]
    by_cases hm : 2 ≤ m ∧ m % 2 = 0
    · rw [if_pos hm]
      have h2 : (m + 1 - 1) / 2 = (m - 1) / 2 + 1 := by omega
      rw [h2, List.range_succ, List.map_append]
      have hpair : ((m - 1 : ℕ), m) = (2 * ((m - 1) / 2) + 1, 2 * ((m - 1) / 2) + 2) := by
        simp only [Prod.mk.injEq]
        omega
      rw [hpair]
      rfl
    · rw [if_neg hm, List.append_nil]
      have h2 : (m + 1 - 1) / 2 = (m - 1) / 2 := by omega
      rw [h2]

/-! ## Swap-network support: pointwise dynamics -/

theorem length_swapEntries (vm : List ℕ) (i j : ℕ) :
    (swapEntries vm i j).length = vm.length := by
  simp [swapEntries]

theorem applyCover_append (c₁ c₂ : List (ℕ × ℕ)) (vm : List ℕ) :
    applyCover (c₁ ++ c₂) vm = applyCover c₂ (applyCover c₁ vm) := by
  rw [applyCover, applyCover, applyCover, List.foldl_append]

theorem length_applyCover (c : List (ℕ × ℕ)) (vm : List ℕ) :
    (applyCover c vm).length = vm.length := by
  induction c generalizing vm with
  | nil => rfl
  | cons p ps ih =>
    rw [show p :: ps = [p] ++ ps from rfl, applyCover_append, ih]
    exact length_swapEntries vm p.1 p.2

theorem getD_eq_getElem (l : List ℕ) (i : ℕ) (h : i < l.length) :
    l.getD i 0 = l[i] := by
  rw [List.getD_eq_getElem?_getD, List.getElem?_eq_getElem h]
  rfl

theorem swapEntries_getD (vm : List ℕ) (i j p : ℕ)
    (hi : i < vm.length) (hj : j < vm.length) (hij : i ≠ j) :
    (swapEntries vm i j).getD p 0
      = if p = i then vm.getD j 0 else if p = j then vm.getD i 0 else vm.getD p 0 := by
  rw [swapEntries, List.getD_eq_getElem?_getD]
  by_cases hpj : p = j
  · subst hpj
    rw [List.getElem?_set_self (by simpa using hj)]
    simp [hij, Ne.symm hij]
  · rw [List.getElem?_set_ne (fun h => hpj h.symm)]
    by_cases hpi : p = i
    · subst hpi
      rw [List.getElem?_set_self hi]
      simp [hpj]
    · rw [List.getElem?_set_ne (fun h => hpi h.symm)]
      simp [hpi, hpj, List.getD_eq_getElem?_getD]

theorem applyCover_shape_getD (o : ℕ) (k : ℕ) (vm : List ℕ) (p : ℕ)
    (hk : o + 2 * k ≤ vm.length) :
    (applyCover ((List.range k).map fun i => (o + 2 * i, o + 2 * i + 1)) vm).getD p 0
      = vm.getD
          (if o ≤ p ∧ p < o + 2 * k then
            (if (p + o) % 2 = 0 then p + 1 else p - 1)
          else p) 0 := by
  induction k generalizing p with
  | zero =>
    simp only [List.range_zero, List.map_nil]
    have hid : (if o ≤ p ∧ p < o + 2 * 0 then
        (if (p + o) % 2 = 0 then p + 1 else p - 1) else p) = p := by
      split_ifs <;> omega
    rw [hid]
    rfl
  | succ m ih =>
    rw [List.range_succ, List.map_append, applyCover_append]
    simp only [List.map_cons, List.map_nil]
    have hlen : (applyCover ((List.range m).map fun i => (o + 2 * i, o + 2 * i + 1)) vm).length
        = vm.length := length_applyCover _ _
    have hstep : applyCover [(o + 2 * m, o + 2 * m + 1)]
          (applyCover ((List.range m).map fun i => (o + 2 * i, o + 2 * i + 1)) vm)
        = swapEntries
            (applyCover ((List.range m).map fun i => (o + 2 * i, o + 2 * i + 1)) vm)
            (o + 2 * m) (o + 2 * m + 1) := rfl
    rw [hstep, swapEntries_getD _ _ _ _ (by omega) (by omega) (by omega)]
    by_cases hp1 : p = o + 2 * m
    · rw [if_pos hp1, ih _ (by omega)]
      have h1 : (if o ≤ o + 2 * m + 1 ∧ o + 2 * m + 1 < o + 2 * m then
          (if (o + 2 * m + 1 + o) % 2 = 0 then o + 2 * m + 1 + 1 else o + 2 * m + 1 - 1)
          else o + 2 * m + 1) = o + 2 * m + 1 := by
        split_ifs <;> omega
      have h2 : (if o ≤ p ∧ p < o + 2 * (m + 1) then
          (if (p + o) % 2 = 0 then p + 1 else p - 1) else p) = o + 2 * m + 1 := by
        split_ifs <;> omega
      rw [h1, h2]
    · rw [if_neg hp1]
      by_cases hp2 : p = o + 2 * m + 1
      · rw [if_pos hp2, ih _ (by omega)]
        have h1 : (if o ≤ o + 2 * m ∧ o + 2 * m < o + 2 * m then
            (if (o + 2 * m + o) % 2 = 0 then o + 2 * m + 1 else o + 2 * m - 1)
            else o + 2 * m) = o + 2 * m := by
          split_ifs <;> omega
        have h2 : (if o ≤ p ∧ p < o + 2 * (m + 1) then
            (if (p + o) % 2 = 0 then p + 1 else p - 1) else p) = o + 2 * m := by
          split_ifs <;> omega
        rw [h1, h2]
      · rw [if_neg hp2, ih _ (by omega)]
        have h12 : (if o ≤ p ∧ p < o + 2 * m then
            (if (p + o) % 2 = 0 then p + 1 else p - 1) else p)
            = (if o ≤ p ∧ p < o + 2 * (m + 1) then
              (if (p + o) % 2 = 0 then p + 1 else p - 1) else p) := by
          split_ifs <;> omega
        rw [h12]

theorem applyCover_layer_getD (n ℓ : ℕ) (vm : List ℕ) (hlen : vm.length = n)
    (p : ℕ) (hp : p < n) :
    (applyCover (layerCover n ℓ) vm).getD p 0 = vm.getD (partner n ℓ p) 0 := by
  rw [layerCover]
  by_cases hℓ : ℓ % 2 = 0
  · rw [if_pos hℓ, coverA_eq]
    have hc : ((List.range (n / 2)).map fun i => (2 * i, 2 * i + 1))
        = (List.range (n / 2)).map fun i => (0 + 2 * i, 0 + 2 * i + 1) := by
      apply List.map_congr_left
      intro a _
      simp only [Prod.mk.injEq]
      omega
    rw [hc, applyCover_shape_getD 0 (n / 2) vm p (by omega)]
    have : (if 0 ≤ p ∧ p < 0 + 2 * (n / 2) then
        (if (p + 0) % 2 = 0 then p + 1 else p - 1) else p) = partner n ℓ p := by
      rw [partner]
      split_ifs <;> omega
    rw [this]
  · rw [if_neg hℓ, coverB_eq]
    have hc : ((List.range ((n - 1) / 2)).map fun i => (2 * i + 1, 2 * i + 2))
        = (List.range ((n - 1) / 2)).map fun i => (1 + 2 * i, 1 + 2 * i + 1) := by
      apply List.map_congr_left
      intro a _
      simp only [Prod.mk.injEq]
      omega
    rw [hc, applyCover_shape_getD 1 ((n - 1) / 2) vm p (by omega)]
    have : (if 1 ≤ p ∧ p < 1 + 2 * ((n - 1) / 2) then
        (if (p + 1) % 2 = 0 then p + 1 else p - 1) else p) = partner n ℓ p := by
      rw [partner]
      split_ifs <;> omega
    rw [this]

theorem partner_lt (n ℓ p : ℕ) (hp : p < n) : partner n ℓ p < n := by
  rw [partner]
  split_ifs <;> omega

/-! ## Swap-network support: the trajectory formula -/

theorem w_zero (n p : ℕ) (hp : p < n) : w n 0 p = p := by
  rw [w]
  split_ifs <;> omega

theorem w_lt (n t p : ℕ) (hp : p < n) (ht : t ≤ n) : w n t p < n := by
  rw [w]
  split_ifs <;> omega

theorem w_final (n p : ℕ) (hp : p < n) : w n n p = n - 1 - p := by
  rw [w]
  split_ifs <;> omega

theorem w_step (n t p : ℕ) (hp : p < n) (ht : t < n) :
    w n (t + 1) p = w n t (partner n t p) := by
  rw [w, w, partner]
  split_ifs <;> omega

theorem getD_map_range (f : ℕ → ℕ) (n q : ℕ) (hq : q < n) :
    ((List.range n).map f).getD q 0 = f q := by
  rw [List.getD_eq_getElem?_getD, List.getElem?_map, List.getElem?_range hq]
  rfl

theorem vmAfter_succ (n t : ℕ) :
    vmAfter n (t + 1) = applyCover (layerCover n t) (vmAfter n t) := by
  rw [vmAfter, vmAfter, List.range_succ, List.foldl_append]
  rfl

theorem length_vmAfter (n t : ℕ) : (vmAfter n t).length = n := by
  induction t with
  | zero => simp [vmAfter]
  | succ m ih => rw [vmAfter_succ, length_applyCover, ih]

theorem eq_of_getD (l₁ l₂ : List ℕ) (hl : l₁.length = l₂.length)
    (h : ∀ i, i < l₁.length → l₁.getD i 0 = l₂.getD i 0) : l₁ = l₂ := by
  apply List.ext_getElem hl
  intro i h1 h2
  rw [← getD_eq_getElem l₁ i h1, ← getD_eq_getElem l₂ i h2]
  exact h i h1

theorem vmAfter_eq_w (n : ℕ) : ∀ t, t ≤ n →
    vmAfter n t = (List.range n).map fun p => w n t p := by
  intro t
  induction t with
  | zero =>
    intro _
    have : ((List.range n).map fun p => w n 0 p) = (List.range n).map fun p => p := by
      apply List.map_congr_left
      intro p hp
      exact w_zero n p (List.mem_range.mp hp)
    rw [this, List.map_id']
    rfl
  | succ m ih =>
    intro hm
    have ihm := ih (by omega)
    apply eq_of_getD
    · rw [length_vmAfter, List.length_map, List.length_range]
    · intro q h1
      have hq : q < n := by
        rw [length_vmAfter] at h1
        exact h1
      rw [vmAfter_succ,
        applyCover_layer_getD n m (vmAfter n m) (length_vmAfter n m) q hq, ihm,
        getD_map_range _ _ _ (partner_lt n m q hq),
        getD_map_range _ _ _ hq, w_step n m q hq (by omega)]

theorem vmAfter_final (n : ℕ) : vmAfter n n = (List.range n).reverse := by
  rw [vmAfter_eq_w n n le_rfl]
  have hcongr : ((List.range n).map fun p => w n n p)
      = (List.range n).map fun p => n - 1 - p :=
    List.map_congr_left fun p hp => w_final n p (List.mem_range.mp hp)
  rw [hcongr]
  apply List.ext_getElem
  · simp
  · intro q h1 h2
    simp only [List.getElem_map, List.getElem_range, List.getElem_reverse,
      List.length_range]

/-! ## Swap-network support: which logical pairs are processed -/

theorem mem_layerCover (n ℓ : ℕ) (pr : ℕ × ℕ) :
    pr ∈ layerCover n ℓ ↔ ∃ i, pr = (i, i + 1) ∧ (i + ℓ) % 2 = 0 ∧ i + 1 < n := by
  rw [layerCover]
  by_cases hℓ : ℓ % 2 = 0
  · rw [if_pos hℓ, coverA_eq, List.mem_map]
    constructor
    · rintro ⟨j, hj, rfl⟩
      rw [List.mem_range] at hj
      exact ⟨2 * j, rfl, by omega, by omega⟩
    · rintro ⟨i, rfl, hpar, hin⟩
      refine ⟨i / 2, List.mem_range.mpr (by omega), ?_⟩
      simp only [Prod.mk.injEq]
      omega
  · rw [if_neg hℓ, coverB_eq, List.mem_map]
    constructor
    · rintro ⟨j, hj, rfl⟩
      rw [List.mem_range] at hj
      exact ⟨2 * j + 1, rfl, by omega, by omega⟩
    · rintro ⟨i, rfl, hpar, hin⟩
      refine ⟨i / 2, List.mem_range.mpr (by omega), ?_⟩
      simp only [Prod.mk.injEq]
      omega

theorem w_pair_lt (n ℓ i : ℕ) (hℓ : ℓ < n) (hpar : (i + ℓ) % 2 = 0)
    (hi : i + 1 < n) : w n ℓ i < w n ℓ (i + 1) := by
  rw [w, w]
  split_ifs <;> omega

theorem w_inj (n t p q : ℕ) (hp : p < n) (hq : q < n) (ht : t ≤ n) :
    w n t p = w n t q → p = q := by
  rw [w, w]
  split_ifs <;> omega

theorem layer_pos_unique (n ℓ₁ i₁ ℓ₂ i₂ : ℕ)
    (h1 : ℓ₁ < n) (hp1 : (i₁ + ℓ₁) % 2 = 0) (hi1 : i₁ + 1 < n)
    (h2 : ℓ₂ < n) (hp2 : (i₂ + ℓ₂) % 2 = 0) (hi2 : i₂ + 1 < n)
    (ha : w n ℓ₁ i₁ = w n ℓ₂ i₂) (hb : w n ℓ₁ (i₁ + 1) = w n ℓ₂ (i₂ + 1)) :
    ℓ₁ = ℓ₂ ∧ i₁ = i₂ := by
  rw [w, w] at ha hb
  split_ifs at ha hb <;> omega

theorem pair_processed (n a b : ℕ) (hab : a < b) (hb : b < n) :
    ∃ ℓ i, ℓ < n ∧ (i + ℓ) % 2 = 0 ∧ i + 1 < n
      ∧ w n ℓ i = a ∧ w n ℓ (i + 1) = b := by
  by_cases ha2 : a % 2 = 0
  · by_cases hb2 : b % 2 = 0
    · refine ⟨n - 1 - (a + b) / 2, a + (n - 1 - (a + b) / 2),
        by omega, by omega, by omega, ?_, ?_⟩
      · rw [w]
        split_ifs <;> omega
      · rw [w]
        split_ifs <;> omega
    · refine ⟨(b - a - 1) / 2, a + (b - a - 1) / 2,
        by omega, by omega, by omega, ?_, ?_⟩
      · rw [w]
        split_ifs <;> omega
      · rw [w]
        split_ifs <;> omega
  · by_cases hb2 : b % 2 = 0
    · refine ⟨(2 * n - 1 - (b - a)) / 2, (2 * n - 1 - (b - a)) / 2 - a - 1,
        by omega, by omega, by omega, ?_, ?_⟩
      · rw [w]
        split_ifs <;> omega
      · rw [w]
        split_ifs <;> omega
    · refine ⟨(a + b) / 2, (b - a) / 2 - 1,
        by omega, by omega, by omega, ?_, ?_⟩
      · rw [w]
        split_ifs <;> omega
      · rw [w]
        split_ifs <;> omega

theorem mem_stepPairs (n ℓ : ℕ) (hℓ : ℓ ≤ n) (a b : ℕ) :
    (a, b) ∈ stepPairs n ℓ
      ↔ ∃ i, (i + ℓ) % 2 = 0 ∧ i + 1 < n ∧ w n ℓ i = a ∧ w n ℓ (i + 1) = b := by
  rw [stepPairs, List.mem_map]
  constructor
  · rintro ⟨pr, hpr, heq⟩
    obtain ⟨i, rfl, hpar, hin⟩ := (mem_layerCover n ℓ pr).mp hpr
    simp only [Prod.mk.injEq] at heq
    exact ⟨i, hpar, hin, heq.1, heq.2⟩
  · rintro ⟨i, hpar, hin, ha, hb⟩
    exact ⟨(i, i + 1), (mem_layerCover n ℓ _).mpr ⟨i, rfl, hpar, hin⟩, by
      simp only [Prod.mk.injEq]
      exact ⟨ha, hb⟩⟩

/-! ## Swap-network support: the recording fold -/

theorem foldl_flatMap {α β σ : Type} (l : List α) (f : α → List β)
    (g : σ → β → σ) (init : σ) :
    (l.flatMap f).foldl g init = l.foldl (fun acc a => (f a).foldl g acc) init := by
  induction l generalizing init with
  | nil => rfl
  | cons a as ih => simp only [List.flatMap_cons, List.foldl_append, List.foldl_cons, ih]

theorem recordCover (o k : ℕ) (vm₀ : List ℕ) (acc : List (ℕ × ℕ))
    (hk : o + 2 * k ≤ vm₀.length) :
    ((List.range k).map fun i => (o + 2 * i, o + 2 * i + 1)).foldl recStep (vm₀, acc)
      = (applyCover ((List.range k).map fun i => (o + 2 * i, o + 2 * i + 1)) vm₀,
          acc ++ ((List.range k).map fun i => (o + 2 * i, o + 2 * i + 1)).map
            fun pr => (vm₀.getD pr.1 0, vm₀.getD pr.2 0)) := by
  induction k with
  | zero => simp [applyCover]
  | succ m ih =>
    rw [List.range_succ, List.map_append, List.foldl_append,
      ih (by omega), applyCover_append]
    simp only [List.map_cons, List.map_nil, List.foldl_cons, List.foldl_nil, recStep]
    have h1 : (applyCover ((List.range m).map fun i => (o + 2 * i, o + 2 * i + 1)) vm₀).getD
        (o + 2 * m) 0 = vm₀.getD (o + 2 * m) 0 := by
      rw [applyCover_shape_getD o m vm₀ _ (by omega)]
      have : (if o ≤ o + 2 * m ∧ o + 2 * m < o + 2 * m then
          (if (o + 2 * m + o) % 2 = 0 then o + 2 * m + 1 else o + 2 * m - 1)
          else o + 2 * m) = o + 2 * m := by
        split_ifs <;> omega
      rw [this]
    have h2 : (applyCover ((List.range m).map fun i => (o + 2 * i, o + 2 * i + 1)) vm₀).getD
        (o + 2 * m + 1) 0 = vm₀.getD (o + 2 * m + 1) 0 := by
      rw [applyCover_shape_getD o m vm₀ _ (by omega)]
      have : (if o ≤ o + 2 * m + 1 ∧ o + 2 * m + 1 < o + 2 * m then
          (if (o + 2 * m + 1 + o) % 2 = 0 then o + 2 * m + 1 + 1 else o + 2 * m + 1 - 1)
          else o + 2 * m + 1) = o + 2 * m + 1 := by
        split_ifs <;> omega
      rw [this]
    rw [h1, h2, List.append_assoc]
    simp only [List.map_append, List.map_cons, List.map_nil]
    rfl

theorem recordLayer (n ℓ : ℕ) (vm₀ : List ℕ) (acc : List (ℕ × ℕ))
    (hlen : vm₀.length = n) :
    (layerCover n ℓ).foldl recStep (vm₀, acc)
      = (applyCover (layerCover n ℓ) vm₀,
          acc ++ (layerCover n ℓ).map fun pr => (vm₀.getD pr.1 0, vm₀.getD pr.2 0)) := by
  rw [layerCover]
  by_cases hℓ : ℓ % 2 = 0
  · rw [if_pos hℓ, coverA_eq]
    have hc : ((List.range (n / 2)).map fun i => (2 * i, 2 * i + 1))
        = (List.range (n / 2)).map fun i => (0 + 2 * i, 0 + 2 * i + 1) := by
      apply List.map_congr_left
      intro a _
      simp only [Prod.mk.injEq]
      omega
    rw [hc]
    exact recordCover 0 (n / 2) vm₀ acc (by omega)
  · rw [if_neg hℓ, coverB_eq]
    have hc : ((List.range ((n - 1) / 2)).map fun i => (2 * i + 1, 2 * i + 2))
        = (List.range ((n - 1) / 2)).map fun i => (1 + 2 * i, 1 + 2 * i + 1) := by
      apply List.map_congr_left
      intro a _
      simp only [Prod.mk.injEq]
      omega
    rcases Nat.eq_zero_or_pos n with hn | hn
    · subst hn
      simp only [Nat.zero_sub, Nat.zero_div, List.range_zero, List.map_nil,
        List.foldl_nil, applyCover, List.append_nil]
    · rw [hc]
      exact recordCover 1 ((n - 1) / 2) vm₀ acc (by omega)

theorem layerCover_mem_lt (n ℓ : ℕ) (pr : ℕ × ℕ) (h : pr ∈ layerCover n ℓ) :
    pr.1 < n ∧ pr.2 < n := by
  obtain ⟨i, rfl, -, hin⟩ := (mem_layerCover n ℓ pr).mp h
  exact ⟨by omega, hin⟩

theorem runPairs_fold (n : ℕ) : ∀ t, t ≤ n →
    (List.range t).foldl (fun acc ℓ => (layerCover n ℓ).foldl recStep acc)
        (List.range n, [])
      = (vmAfter n t, (List.range t).flatMap fun ℓ => stepPairs n ℓ) := by
  intro t
  induction t with
  | zero => simp [vmAfter]
  | succ m ih =>
    intro hm
    rw [List.range_succ, List.foldl_append, ih (by omega)]
    simp only [List.foldl_cons, List.foldl_nil]
    rw [recordLayer n m (vmAfter n m) _ (length_vmAfter n m)]
    rw [List.flatMap_append]
    simp only [List.flatMap_cons, List.flatMap_nil, List.append_nil, Prod.mk.injEq]
    constructor
    · exact (vmAfter_succ n m).symm
    · congr 1
      rw [stepPairs]
      apply List.map_congr_left
      intro pr hpr
      obtain ⟨h1, h2⟩ := layerCover_mem_lt n m pr hpr
      rw [vmAfter_eq_w n m (by omega), getD_map_range _ _ _ h1, getD_map_range _ _ _ h2]

theorem runPairs_eq (n : ℕ) :
    runPairs n = (List.range n).flatMap fun ℓ => stepPairs n ℓ := by
  rw [runPairs, networkPairs, foldl_flatMap, runPairs_fold n n le_rfl]

/-! ## Swap-network support: each pair exactly once -/

theorem layerCover_nodup (n ℓ : ℕ) : (layerCover n ℓ).Nodup := by
  rw [layerCover]
  split_ifs
  · rw [coverA_eq]
    exact List.Nodup.map
      (fun a b hab => by
        simp only [Prod.mk.injEq] at hab
        omega)
      (List.nodup_range _)
  · rw [coverB_eq]
    exact List.Nodup.map
      (fun a b hab => by
        simp only [Prod.mk.injEq] at hab
        omega)
      (List.nodup_range _)

theorem stepPairs_nodup (n ℓ : ℕ) (hℓ : ℓ < n) : (stepPairs n ℓ).Nodup := by
  rw [stepPairs]
  apply List.Nodup.map_on
  · intro x hx y hy hxy
    obtain ⟨i, rfl, hpi, hii⟩ := (mem_layerCover n ℓ x).mp hx
    obtain ⟨j, rfl, hpj, hjj⟩ := (mem_layerCover n ℓ y).mp hy
    simp only [Prod.mk.injEq] at hxy ⊢
    have hij := w_inj n ℓ i j (by omega) (by omega) (by omega) hxy.1
    exact ⟨hij, by rw [hij]⟩
  · exact layerCover_nodup n ℓ

theorem runPairs_nodup (n : ℕ) : (runPairs n).Nodup := by
  rw [runPairs_eq, List.nodup_flatMap]
  constructor
  · intro ℓ hℓ
    exact stepPairs_nodup n ℓ (List.mem_range.mp hℓ)
  · apply List.Pairwise.imp_of_mem ?_ (List.pairwise_lt_range n)
    intro ℓ₁ ℓ₂ h1 h2 hlt
    rw [List.mem_range] at h1 h2
    intro pr hpr1 hpr2
    obtain ⟨a, b⟩ := pr
    obtain ⟨i₁, hpar1, hin1, ha1, hb1⟩ :=
      (mem_stepPairs n ℓ₁ (by omega) a b).mp hpr1
    obtain ⟨i₂, hpar2, hin2, ha2, hb2⟩ :=
      (mem_stepPairs n ℓ₂ (by omega) a b).mp hpr2
    have := layer_pos_unique n ℓ₁ i₁ ℓ₂ i₂ h1 hpar1 hin1 h2 hpar2 hin2
      (by rw [ha1, ha2]) (by rw [hb1, hb2])
    omega

theorem runPairs_mem (n a b : ℕ) (hab : a < b) (hb : b < n) :
    (a, b) ∈ runPairs n := by
  rw [runPairs_eq, List.mem_flatMap]
  obtain ⟨ℓ, i, hℓ, hpar, hin, ha, hb'⟩ := pair_processed n a b hab hb
  exact ⟨ℓ, List.mem_range.mpr hℓ,
    (mem_stepPairs n ℓ (by omega) a b).mpr ⟨i, hpar, hin, ha, hb'⟩⟩

theorem runPairs_sound (n : ℕ) : ∀ pr ∈ runPairs n, pr.1 < pr.2 ∧ pr.2 < n := by
  intro pr hpr
  rw [runPairs_eq, List.mem_flatMap] at hpr
  obtain ⟨ℓ, hℓ, hmem⟩ := hpr
  rw [List.mem_range] at hℓ
  obtain ⟨a, b⟩ := pr
  obtain ⟨i, hpar, hin, ha, hb⟩ := (mem_stepPairs n ℓ (by omega) a b).mp hmem
  refine ⟨?_, ?_⟩
  · rw [← ha, ← hb]
    exact w_pair_lt n ℓ i hℓ hpar hin
  · rw [← hb]
    exact w_lt n ℓ (i + 1) hin (by omega)

end Supermarq

namespace Supermarq

/-! ## Claim C3 -/

/-- C3: starting from the identity virtual map and alternating the
even-offset and odd-offset covers for `n` layers, the logical pairs
looked up are exactly the unordered pairs `{a, b}` with `a < b < n`,
each looked up exactly once (always read in increasing order), and the
final virtual map is the full reversal `virtual_map[k] = n - 1 - k`. -/
theorem claim_C3 (n : ℕ) :
    vmAfter n n = (List.range n).reverse
    ∧ (∀ a b, a < b → b < n → (runPairs n).countP (fun pr => pr = (a, b)) = 1)
    ∧ (∀ pr ∈ runPairs n, pr.1 < pr.2 ∧ pr.2 < n) := by
  refine ⟨vmAfter_final n, ?_, runPairs_sound n⟩
  intro a b hab hb
  exact List.count_eq_one_of_mem (runPairs_nodup n) (runPairs_mem n a b hab hb)

/-- C3 (witness): the swap network on 4 qubits: full reversal and the
pair `(1, 3)` looked up exactly once. -/
theorem claim_C3_witness :
    vmAfter 4 4 = (List.range 4).reverse
    ∧ (runPairs 4).countP (fun pr => pr = (1, 3)) = 1 :=
  ⟨(claim_C3 4).1, (claim_C3 4).2.1 1 3 (by norm_num) (by norm_num)⟩

/-! ## Swap-network support: the Hamiltonian scan -/

theorem lookupWeight_from_some (H : List (ℕ × ℕ × ℤ)) (vi vj : ℕ) :
    ∀ w0 : ℤ, ∃ wt, lookupWeight H vi vj (some w0) = some wt := by
  induction H with
  | nil => exact fun w0 => ⟨w0, rfl⟩
  | cons e es ih =>
    intro w0
    show ∃ wt, lookupWeight es vi vj
      (if e.1 = vi ∧ e.2.1 = vj then some e.2.2 else some w0) = some wt
    by_cases he : e.1 = vi ∧ e.2.1 = vj
    · rw [if_pos he]
      exact ih e.2.2
    · rw [if_neg he]
      exact ih w0

theorem lookupWeight_no_match (H : List (ℕ × ℕ × ℤ)) (vi vj : ℕ)
    (h : H.countP (fun e => e.1 = vi ∧ e.2.1 = vj) = 0) :
    ∀ w0, lookupWeight H vi vj w0 = w0 := by
  induction H with
  | nil => exact fun _ => rfl
  | cons e es ih =>
    intro w0
    rw [List.countP_cons] at h
    by_cases he : e.1 = vi ∧ e.2.1 = vj
    · exfalso
      rw [decide_eq_true he, if_pos rfl] at h
      omega
    · rw [decide_eq_false he, if_neg Bool.false_ne_true] at h
      show lookupWeight es vi vj (if e.1 = vi ∧ e.2.1 = vj then some e.2.2 else w0) = w0
      rw [if_neg he]
      exact ih (by omega) w0

theorem lookupWeight_unique (H : List (ℕ × ℕ × ℤ)) (vi vj : ℕ)
    (h : H.countP (fun e => e.1 = vi ∧ e.2.1 = vj) = 1) :
    ∃ wt, (vi, vj, wt) ∈ H ∧ ∀ w0, lookupWeight H vi vj w0 = some wt := by
  induction H with
  | nil => simp at h
  | cons e es ih =>
    rw [List.countP_cons] at h
    by_cases he : e.1 = vi ∧ e.2.1 = vj
    · have hes : es.countP (fun e => decide (e.1 = vi ∧ e.2.1 = vj)) = 0 := by
        rw [decide_eq_true he, if_pos rfl] at h
        omega
      refine ⟨e.2.2, ?_, ?_⟩
      · have heq : e = (vi, vj, e.2.2) := by
          obtain ⟨a, bc⟩ := e
          obtain ⟨b, c⟩ := bc
          have h1 : a = vi := he.1
          have h2 : b = vj := he.2
          subst h1
          subst h2
          rfl
        rw [← heq]
        exact List.mem_cons_self e es
      · intro w0
        show lookupWeight es vi vj
          (if e.1 = vi ∧ e.2.1 = vj then some e.2.2 else w0) = some e.2.2
        rw [if_pos he]
        exact lookupWeight_no_match es vi vj hes (some e.2.2)
    · have hes : es.countP (fun e => decide (e.1 = vi ∧ e.2.1 = vj)) = 1 := by
        rw [decide_eq_false he, if_neg Bool.false_ne_true] at h
        omega
      obtain ⟨wt, hmem, hall⟩ := ih hes
      refine ⟨wt, List.mem_cons_of_mem e hmem, fun w0 => ?_⟩
      show lookupWeight es vi vj
        (if e.1 = vi ∧ e.2.1 = vj then some e.2.2 else w0) = some wt
      rw [if_neg he]
      exact hall w0

/-! ## Swap-network support: the generation fold -/

theorem processPair_some (H : List (ℕ × ℕ × ℤ)) (γ : ℚ) (st : SwapNetState)
    (p : ℕ × ℕ) (st' : SwapNetState) (h : processPair H γ st p = some st') :
    st'.vm = swapEntries st.vm p.1 p.2
      ∧ countCNOT st'.gates = countCNOT st.gates + 3 := by
  rw [processPair] at h
  cases hw : lookupWeight H (st.vm.getD p.1 0) (st.vm.getD p.2 0) st.wt with
  | none =>
    rw [hw] at h
    simp at h
  | some wt =>
    rw [hw] at h
    simp only [Option.some.injEq] at h
    subst h
    refine ⟨rfl, ?_⟩
    rw [countCNOT, countCNOT, List.countP_append]
    rfl

theorem processFold_count (H : List (ℕ × ℕ × ℤ)) (γ : ℚ) (ps : List (ℕ × ℕ)) :
    ∀ st st', ps.foldlM (processPair H γ) st = some st' →
      countCNOT st'.gates = countCNOT st.gates + 3 * ps.length := by
  induction ps with
  | nil =>
    intro st st' h
    simp only [List.foldlM_nil] at h
    cases h
    simp
  | cons p ps ih =>
    intro st st' h
    rw [List.foldlM_cons] at h
    cases hp : processPair H γ st p with
    | none =>
      rw [hp] at h
      simp at h
    | some st1 =>
      rw [hp] at h
      simp only [Option.bind_eq_bind, Option.some_bind] at h
      have h1 := processPair_some H γ st p st1 hp
      have h2 := ih st1 st' h
      rw [h2, h1.2, List.length_cons]
      ring

theorem genFold_shape (H : List (ℕ × ℕ × ℤ)) (γ : ℚ) (o : ℕ) (n : ℕ) :
    ∀ k (st : SwapNetState), st.vm.length = n → o + 2 * k ≤ n →
      (∀ i, i < k → ∃ wt : ℤ, ∀ w0,
        lookupWeight H (st.vm.getD (o + 2 * i) 0) (st.vm.getD (o + 2 * i + 1) 0) w0
          = some wt) →
      ∃ st', ((List.range k).map fun i => (o + 2 * i, o + 2 * i + 1)).foldlM
          (processPair H γ) st = some st'
        ∧ st'.vm = applyCover ((List.range k).map fun i => (o + 2 * i, o + 2 * i + 1)) st.vm := by
  intro k
  induction k with
  | zero =>
    intro st _ _ _
    exact ⟨st, by simp, by simp [applyCover]⟩
  | succ m ih =>
    intro st hvm hk hsucc
    obtain ⟨st1, hst1, hvm1⟩ := ih st hvm (by omega) (fun i hi => hsucc i (by omega))
    rw [List.range_succ, List.map_append, List.foldlM_append, hst1]
    simp only [Option.bind_eq_bind, Option.some_bind, List.map_cons, List.map_nil,
      List.foldlM_cons, List.foldlM_nil]
    have hg1 : st1.vm.getD (o + 2 * m) 0 = st.vm.getD (o + 2 * m) 0 := by
      rw [hvm1, applyCover_shape_getD o m _ _ (by omega)]
      have : (if o ≤ o + 2 * m ∧ o + 2 * m < o + 2 * m then
          (if (o + 2 * m + o) % 2 = 0 then o + 2 * m + 1 else o + 2 * m - 1)
          else o + 2 * m) = o + 2 * m := by
        split_ifs <;> omega
      rw [this]
    have hg2 : st1.vm.getD (o + 2 * m + 1) 0 = st.vm.getD (o + 2 * m + 1) 0 := by
      rw [hvm1, applyCover_shape_getD o m _ _ (by omega)]
      have : (if o ≤ o + 2 * m + 1 ∧ o + 2 * m + 1 < o + 2 * m then
          (if (o + 2 * m + 1 + o) % 2 = 0 then o + 2 * m + 1 + 1 else o + 2 * m + 1 - 1)
          else o + 2 * m + 1) = o + 2 * m + 1 := by
        split_ifs <;> omega
      rw [this]
    obtain ⟨wt, hwt⟩ := hsucc m (by omega)
    rw [processPair]
    simp only
    rw [hg1, hg2, hwt st1.wt]
    refine ⟨_, rfl, ?_⟩
    simp only
    rw [applyCover_append, hvm1]
    rfl

theorem genFold_layer (H : List (ℕ × ℕ × ℤ)) (γ : ℚ) (n ℓ : ℕ) (st : SwapNetState)
    (hvm : st.vm.length = n)
    (hsucc : ∀ pr ∈ layerCover n ℓ, ∃ wt : ℤ, ∀ w0,
      lookupWeight H (st.vm.getD pr.1 0) (st.vm.getD pr.2 0) w0 = some wt) :
    ∃ st', (layerCover n ℓ).foldlM (processPair H γ) st = some st'
      ∧ st'.vm = applyCover (layerCover n ℓ) st.vm := by
  rw [layerCover] at hsucc ⊢
  by_cases hℓ : ℓ % 2 = 0
  · rw [if_pos hℓ] at hsucc ⊢
    rw [coverA_eq] at hsucc ⊢
    have hc : ((List.range (n / 2)).map fun i => (2 * i, 2 * i + 1))
        = (List.range (n / 2)).map fun i => (0 + 2 * i, 0 + 2 * i + 1) := by
      apply List.map_congr_left
      intro a _
      simp only [Prod.mk.injEq]
      omega
    rw [hc] at hsucc ⊢
    apply genFold_shape H γ 0 n (n / 2) st hvm (by omega)
    intro i hi
    exact hsucc (0 + 2 * i, 0 + 2 * i + 1)
      (List.mem_map.mpr ⟨i, List.mem_range.mpr hi, rfl⟩)
  · rw [if_neg hℓ] at hsucc ⊢
    rw [coverB_eq] at hsucc ⊢
    rcases Nat.eq_zero_or_pos n with hn | hn
    · subst hn
      simp only [Nat.zero_sub, Nat.zero_div, List.range_zero, List.map_nil,
        List.foldlM_nil]
      exact ⟨st, rfl, by simp [applyCover]⟩
    · have hc : ((List.range ((n - 1) / 2)).map fun i => (2 * i + 1, 2 * i + 2))
          = (List.range ((n - 1) / 2)).map fun i => (1 + 2 * i, 1 + 2 * i + 1) := by
        apply List.map_congr_left
        intro a _
        simp only [Prod.mk.injEq]
        omega
      rw [hc] at hsucc ⊢
      apply genFold_shape H γ 1 n ((n - 1) / 2) st hvm (by omega)
      intro i hi
      exact hsucc (1 + 2 * i, 1 + 2 * i + 1)
        (List.mem_map.mpr ⟨i, List.mem_range.mpr hi, rfl⟩)

theorem genNetwork_master (n : ℕ) (γ : ℚ) (H : List (ℕ × ℕ × ℤ))
    (hH : ∀ a b, a < b → b < n → H.countP (fun e => e.1 = a ∧ e.2.1 = b) = 1) :
    ∀ t, t ≤ n →
      ∃ st', ((List.range t).flatMap fun ℓ => layerCover n ℓ).foldlM
          (processPair H γ)
          { vm := List.range n, wt := none, gates := (List.range n).map Gate.H }
        = some st'
      ∧ st'.vm = vmAfter n t := by
  intro t
  induction t with
  | zero =>
    intro _
    exact ⟨{ vm := List.range n, wt := none, gates := (List.range n).map Gate.H },
      by simp, rfl⟩
  | succ m ih =>
    intro hm
    obtain ⟨st1, hst1, hvm1⟩ := ih (by omega)
    rw [List.range_succ, List.flatMap_append, List.foldlM_append, hst1]
    simp only [Option.bind_eq_bind, Option.some_bind, List.flatMap_cons,
      List.flatMap_nil, List.append_nil]
    have hlen1 : st1.vm.length = n := by
      rw [hvm1]
      exact length_vmAfter n m
    have hsucc : ∀ pr ∈ layerCover n m, ∃ wt : ℤ, ∀ w0,
        lookupWeight H (st1.vm.getD pr.1 0) (st1.vm.getD pr.2 0) w0 = some wt := by
      intro pr hpr
      obtain ⟨i, rfl, hpar, hin⟩ := (mem_layerCover n m pr).mp hpr
      have hg1 : st1.vm.getD i 0 = w n m i := by
        rw [hvm1, vmAfter_eq_w n m (by omega), getD_map_range _ _ _ (by omega)]
      have hg2 : st1.vm.getD (i + 1) 0 = w n m (i + 1) := by
        rw [hvm1, vmAfter_eq_w n m (by omega), getD_map_range _ _ _ hin]
      rw [hg1, hg2]
      have hab : w n m i < w n m (i + 1) := w_pair_lt n m i (by omega) hpar hin
      have hbn : w n m (i + 1) < n := w_lt n m (i + 1) hin (by omega)
      obtain ⟨wt, -, hall⟩ := lookupWeight_unique H _ _ (hH _ _ hab hbn)
      exact ⟨wt, hall⟩
    obtain ⟨st2, hst2, hvm2⟩ := genFold_layer H γ n m st1 hlen1 hsucc
    refine ⟨st2, hst2, ?_⟩
    rw [hvm2, hvm1, vmAfter_succ]

theorem genSwapNetwork_succeeds (n : ℕ) (γ β : ℚ) (H : List (ℕ × ℕ × ℤ))
    (hH : ∀ a b, a < b → b < n → H.countP (fun e => e.1 = a ∧ e.2.1 = b) = 1) :
    ∃ c, genSwapNetwork n γ β H = some c := by
  obtain ⟨stF, hfold, -⟩ := genNetwork_master n γ H hH n le_rfl
  rw [genSwapNetwork, networkPairs, hfold]
  exact ⟨_, rfl⟩

end Supermarq

namespace Supermarq

/-! ## Claim C10 -/

/-- C10: whenever the Hamiltonian stores each unordered pair `(a, b)`
with `a < b` exactly once (as the SK generator guarantees), every step
of the swap network looks up a logical pair in increasing order, the
linear scan matches exactly one edge at that step (so the Python
`weight` variable is freshly assigned from the unique matching edge,
independent of its previous value — never stale or undefined), and the
whole circuit generation succeeds. -/
theorem claim_C10 (n : ℕ) (γ β : ℚ) (H : List (ℕ × ℕ × ℤ))
    (hH : ∀ a b, a < b → b < n → H.countP (fun e => e.1 = a ∧ e.2.1 = b) = 1) :
    (∀ pr ∈ runPairs n,
      pr.1 < pr.2
        ∧ H.countP (fun e => e.1 = pr.1 ∧ e.2.1 = pr.2) = 1
        ∧ ∃ wt, (pr.1, pr.2, wt) ∈ H
            ∧ ∀ w0, lookupWeight H pr.1 pr.2 w0 = some wt)
    ∧ ∃ c, genSwapNetwork n γ β H = some c := by
  constructor
  · intro pr hpr
    obtain ⟨h1, h2⟩ := runPairs_sound n pr hpr
    have hcount := hH pr.1 pr.2 h1 h2
    exact ⟨h1, hcount, lookupWeight_unique H pr.1 pr.2 hcount⟩
  · exact genSwapNetwork_succeeds n γ β H hH

/-- C10 (witness): the swap network on 3 qubits over the concrete
Hamiltonian `[(0,1,+1), (0,2,+1), (1,2,-1)]`. -/
theorem claim_C10_witness :
    (∀ pr ∈ runPairs 3,
      pr.1 < pr.2
        ∧ ([(0, 1, 1), (0, 2, 1), (1, 2, -1)] : List (ℕ × ℕ × ℤ)).countP
            (fun e => e.1 = pr.1 ∧ e.2.1 = pr.2) = 1
        ∧ ∃ wt, (pr.1, pr.2, wt) ∈ ([(0, 1, 1), (0, 2, 1), (1, 2, -1)] : List (ℕ × ℕ × ℤ))
            ∧ ∀ w0, lookupWeight [(0, 1, 1), (0, 2, 1), (1, 2, -1)] pr.1 pr.2 w0 = some wt)
    ∧ ∃ c, genSwapNetwork 3 1 1 [(0, 1, 1), (0, 2, 1), (1, 2, -1)] = some c :=
  claim_C10 3 1 1 [(0, 1, 1), (0, 2, 1), (1, 2, -1)]
    (by
      intro a b hab hb
      interval_cases b <;> interval_cases a <;> decide)

/-! ## Claim C8 -/

/-- C8: every successfully generated 4-qubit fermionic swap-network
ansatz circuit contains exactly 18 CNOT gates: 6 processed cover pairs
over the 4 layers, each contributing 3 CNOTs in its ZZ+SWAP sequence. -/
theorem claim_C8 (γ β : ℚ) (H : List (ℕ × ℕ × ℤ)) (c : List Gate)
    (hc : genSwapNetwork 4 γ β H = some c) :
    countCNOT c = 18 ∧ (networkPairs 4).length = 6 := by
  refine ⟨?_, by decide⟩
  rw [genSwapNetwork] at hc
  obtain ⟨stF, hfold, hcF⟩ := Option.map_eq_some'.mp hc
  have hcount := processFold_count H γ (networkPairs 4) _ stF hfold
  have hinit : countCNOT ((List.range 4).map Gate.H) = 0 := by decide
  have hlen : (networkPairs 4).length = 6 := by decide
  rw [← hcF, countCNOT, List.countP_append, List.countP_append]
  have hrx : ((List.range 4).map fun q => Gate.Rx β q).countP
      (fun g => match g with | Gate.CNOT _ _ => true | _ => false) = 0 := by
    rw [List.countP_eq_zero]
    intro g hg
    obtain ⟨q, -, hq⟩ := List.mem_map.mp hg
    rw [← hq]
    simp
  have hms : ([Gate.Measure] : List Gate).countP
      (fun g => match g with | Gate.CNOT _ _ => true | _ => false) = 0 := by decide
  rw [hrx, hms]
  have : (countCNOT stF.gates) = 18 := by
    rw [hcount, hinit, hlen]
  rw [← countCNOT]
  omega

/-- C8 (witness): a concrete 4-qubit generation over the Hamiltonian
with all six pairs, yielding exactly 18 CNOT gates. -/
theorem claim_C8_witness :
    ∃ c, genSwapNetwork 4 1 1
        [(0, 1, 1), (0, 2, 1), (0, 3, -1), (1, 2, 1), (1, 3, 1), (2, 3, 1)] = some c
      ∧ countCNOT c = 18 := by
  obtain ⟨c, hc⟩ := genSwapNetwork_succeeds 4 1 1
    [(0, 1, 1), (0, 2, 1), (0, 3, -1), (1, 2, 1), (1, 3, 1), (2, 3, 1)]
    (by
      intro a b hab hb
      interval_cases b <;> interval_cases a <;> decide)
  exact ⟨c, hc, (claim_C8 1 1 _ c hc).1⟩

end Supermarq
